import Mathlib

/-!
Verification of the core of the `randmst` repository: the size-tracking
disjoint-set structure (`src/complete/union_find.rs`), the adaptive
fat-component edge sampler (`src/complete/sampler.rs`), the driver loop
(`src/complete/mod.rs`) and the trial dispatch in `src/main.rs`.

Modelling conventions.
* `Point(u32)` is modelled as `Nat`; all valid points are `< size`.
* `LinkSizeCompact` packs either a parent pointer or a root size into one
  `u32` using the high tag bit `SENTINEL = 2^31`.  We model the expanded
  view (`LinkSize` in the source) directly: `expand` is a bijection between
  the valid packed words and `Parent p` (p < 2^31) / `Size s` (s < 2^31),
  and the construction guard `assert_eq!(size & SENTINEL, 0)` keeps every
  stored quantity below `2^31`.
* Interior mutability through `Cell` is modelled by explicit state passing:
  every read that path-splits returns the updated structure.
* The unbounded `loop`/`while` constructs of the source are modelled with
  an explicit fuel argument; `none` means the fuel ran out (the source
  would still be looping).  For the union-find operations a fuel linear in
  the number of points is always sufficient, which is proved below.
* `f64` arithmetic is abstracted by a `WeightModel`: the sampler is
  parametric in the carrier of the weight accumulator and in the
  interpretations of the floating-point operations it performs, so the
  bookkeeping structure of the weight updates is exactly the source's
  while no floating-point rounding is axiomatised.
* The random number generator is an explicit stream of draws: each
  primitive (`Uniform` vertex draw, `gen_range`, `gen_bool`, `Exp1`)
  consumes one raw value from the stream.
-/

namespace RandMST

/-- Expanded view of a `LinkSizeCompact` slot (the `LinkSize` enum of the
source): a non-root stores its parent `Point`, a root stores the size of
its component. -/
inductive LinkSize where
  | Parent (p : Nat)
  | Size (s : Nat)
  deriving DecidableEq, Repr

/-- The `SizedUnionFind` struct: the slot array `data`, the number of
points `size`, and the two edge counters.  The cached `Uniform`
distribution object carries no state beyond `size` and is not modelled. -/
structure SizedUnionFind where
  data : List LinkSize
  size : Nat
  total_edges : Nat
  total_internal : Nat
  deriving DecidableEq, Repr

/-- Slot lookup, `self[u]` in the source (out-of-range reads would panic in
Rust; the default is never reached on valid points). -/
def slotL (data : List LinkSize) (u : Nat) : LinkSize :=
  (data[u]?).getD (LinkSize.Size 0)

/-- The private `parent` helper: a root is its own parent. -/
def parentL (data : List LinkSize) (u : Nat) : Nat :=
  match slotL data u with
  | .Parent p => p
  | .Size _ => u

/-- Whether a slot currently carries a size, i.e. is a component root. -/
def isRootSlot (data : List LinkSize) (u : Nat) : Bool :=
  match slotL data u with
  | .Size _ => true
  | .Parent _ => false

namespace SizedUnionFind

/-- Slot lookup on the structure. -/
def slot (uf : SizedUnionFind) (u : Nat) : LinkSize := slotL uf.data u

/-- The private `parent` method. -/
def parent (uf : SizedUnionFind) (u : Nat) : Nat := parentL uf.data u

/-- The `try_size` method of `LinkSizeCompact` applied to slot `u`. -/
def try_size (uf : SizedUnionFind) (u : Nat) : Option Nat :=
  match uf.slot u with
  | .Size s => some s
  | .Parent _ => none

/-- The private `link` method: relink `src` to point at `dst` unless the
two coincide (the guard that avoids an infinite self-loop sentinel). -/
def link (uf : SizedUnionFind) (src dst : Nat) : SizedUnionFind :=
  if src ≠ dst then { uf with data := uf.data.set src (.Parent dst) } else uf

/-- Overwrite a root slot with a new size,
`self[root].set(&LinkSizeCompact::root(s))` in the source. -/
def setRoot (uf : SizedUnionFind) (r s : Nat) : SizedUnionFind :=
  { uf with data := uf.data.set r (.Size s) }

/-- Constructor `SizedUnionFind::new`.  The source asserts
`size & SENTINEL == 0` (for a `u32` argument this is exactly
`size < 2^31`), and `Uniform::new(0, size)` panics when the range is
empty, so construction fails for `size = 0` as well. -/
def new (size : Nat) : Option SizedUnionFind :=
  if 2 ^ 31 ≤ size then none
  else if size = 0 then none
  else some
    { data := List.replicate size (.Size 1)
      size := size
      total_edges := size * (size - 1) / 2
      total_internal := 0 }

/-- The `linked_edges` accessor. -/
def linked_edges (uf : SizedUnionFind) : Nat := uf.total_internal

/-- The `free_edges` accessor, `total_edges - total_internal`. -/
def free_edges (uf : SizedUnionFind) : Nat := uf.total_edges - uf.total_internal

/-- The `total_size` accessor. -/
def total_size (uf : SizedUnionFind) : Nat := uf.size

end SizedUnionFind

/-- Fuelled core of `root_size`'s loop.  Each iteration reads
`temp = parent(root)`; if `temp`'s slot carries a size the walk ends
there, otherwise the path-splitting write `prev.set(&self[temp])` relinks
the current node to its grandparent and the walk climbs one step. -/
def rootSizeAux (data : List LinkSize) (u : Nat) : Nat → Option (List LinkSize × Nat × Nat)
  | 0 => none
  | fuel + 1 =>
    let temp := parentL data u
    match slotL data temp with
    | .Size s => some (data, temp, s)
    | .Parent _ => rootSizeAux (data.set u (slotL data temp)) temp fuel

namespace SizedUnionFind

/-- The `root_size` method: returns the updated structure together with
the root of `u`'s component and the size stored there.  The early return
covers the case that `u` is itself a root (no write happens). -/
def root_size (uf : SizedUnionFind) (u : Nat) : Option (SizedUnionFind × Nat × Nat) :=
  match slotL uf.data u with
  | .Size s => some (uf, u, s)
  | .Parent _ =>
    match rootSizeAux uf.data u (uf.data.length + 1) with
    | some (d, r, s) => some ({ uf with data := d }, r, s)
    | none => none

/-- The `root` method, `root_size(u).0`. -/
def root (uf : SizedUnionFind) (u : Nat) : Option (SizedUnionFind × Nat) :=
  (uf.root_size u).map fun x => (x.1, x.2.1)

/-- The `size` method, `root_size(u).1` (named `sizeP` because `size` is
the struct field). -/
def sizeP (uf : SizedUnionFind) (u : Nat) : Option (SizedUnionFind × Nat) :=
  (uf.root_size u).map fun x => (x.1, x.2.2)

/-- The `same_set` method, `root(u) == root(v)`; both root lookups may
path-split, in evaluation order `u` then `v`. -/
def same_set (uf : SizedUnionFind) (u v : Nat) : Option (SizedUnionFind × Bool) :=
  match uf.root u with
  | none => none
  | some (uf1, ru) =>
    match uf1.root v with
    | none => none
    | some (uf2, rv) => some (uf2, ru = rv)

end SizedUnionFind

/-- Fuelled core of `unite`'s `while self.parent(u) != self.parent(v)`
loop.  Per iteration: orient so that `parent(u) <= parent(v)`; if `u` is
a root, link it under `parent(v)`, resolve the other side's root and add
the sizes, relink every queued node to the final root and bump the
internal-edge counter; otherwise push `u` on the queue and climb. -/
def uniteAux (uf : SizedUnionFind) (u v : Nat) (queue : List Nat) :
    Nat → Option (SizedUnionFind × Bool)
  | 0 => none
  | fuel + 1 =>
    if uf.parent u = uf.parent v then some (uf, false)
    else
      let u' := if uf.parent u > uf.parent v then v else u
      let v' := if uf.parent u > uf.parent v then u else v
      match slotL uf.data u' with
      | .Size joinSize =>
        let uf1 := uf.link u' (uf.parent v')
        match uf1.root_size v' with
        | none => none
        | some (uf2, r, s) =>
          let uf3 := uf2.setRoot r (s + joinSize)
          let uf4 := queue.foldl (fun w p => w.link p r) uf3
          some ({ uf4 with total_internal := uf4.total_internal + s * joinSize }, true)
      | .Parent temp => uniteAux uf temp v' (queue ++ [u']) fuel

namespace SizedUnionFind

/-- The `unite` method.  A fuel of `2 * length + 2` always suffices on
well-formed states (proved below). -/
def unite (uf : SizedUnionFind) (u v : Nat) : Option (SizedUnionFind × Bool) :=
  uniteAux uf u v [] (2 * uf.data.length + 2)

end SizedUnionFind

/-- Fuelled purely-functional root lookup used to state specifications:
follows parent pointers without writing. -/
def rootNAux (data : List LinkSize) (u : Nat) : Nat → Option Nat
  | 0 => none
  | fuel + 1 =>
    match slotL data u with
    | .Size _ => some u
    | .Parent p => rootNAux data p fuel

/-- Root of `u`'s component as a pure function of the slot array. -/
def rootN (data : List LinkSize) (u : Nat) : Option Nat :=
  rootNAux data u (data.length + 1)

/-- Structural invariant of the slot array: every parent pointer strictly
increases ("roots at the end of the array") and stays in range. -/
def Increasing (data : List LinkSize) : Prop :=
  ∀ u p, slotL data u = .Parent p → u < p ∧ p < data.length

/-- The set of points inside the component rooted at `r`. -/
def fiber (data : List LinkSize) (r : Nat) : Finset Nat :=
  (Finset.range data.length).filter fun u => rootN data u = some r

/-- Every root slot stores the cardinality of its component. -/
def SizesOK (data : List LinkSize) : Prop :=
  ∀ r s, slotL data r = .Size s → r < data.length → s = (fiber data r).card

/-- Number of unordered vertex pairs currently in the same component. -/
def samePairs (data : List LinkSize) : Nat :=
  ((Finset.range data.length ×ˢ Finset.range data.length).filter
    fun p => p.1 < p.2 ∧ rootN data p.1 = rootN data p.2).card

/-- Number of unordered vertex pairs overall, as a pair count. -/
def allPairs (n : Nat) : Nat :=
  ((Finset.range n ×ˢ Finset.range n).filter fun p => p.1 < p.2).card

/-- Number of component roots (slots holding a size). -/
def numRoots (data : List LinkSize) : Nat :=
  ((Finset.range data.length).filter fun r => isRootSlot data r = true).card

/-- Well-formedness of a `SizedUnionFind` state: established by `new`,
preserved by every operation. -/
structure WF (uf : SizedUnionFind) : Prop where
  len : uf.data.length = uf.size
  pos : 0 < uf.size
  inc : Increasing uf.data
  sizes : SizesOK uf.data
  total : uf.total_edges = uf.size * (uf.size - 1) / 2
  internal : uf.total_internal = samePairs uf.data

/-- Apply a sequence of `unite` calls in order (the mutation history of
claim C2), threading the state and ignoring the returned booleans. -/
def applyUnites (uf : SizedUnionFind) : List (Nat × Nat) → Option SizedUnionFind
  | [] => some uf
  | op :: ops =>
    match uf.unite op.1 op.2 with
    | none => none
    | some x => applyUnites x.1 ops

/-- Explicit random source: a stream of raw draws and a cursor.  Each
primitive of the `rand` crate used by the sampler (`Uniform` vertex draw,
`gen_range`, `gen_bool`, `Exp1`) consumes one raw value. -/
structure Rng where
  stream : Nat → Nat
  pos : Nat

/-- Consume one raw draw. -/
def Rng.next (rng : Rng) : Nat × Rng :=
  (rng.stream rng.pos, { rng with pos := rng.pos + 1 })

/-- Interpretation of the `f64` operations the sampler performs on its
weight accumulator.  The sampler is parametric in it, so every theorem
below holds for any reading of floating-point arithmetic; a computable
rational instance is used to evaluate witnesses. -/
structure WeightModel (R : Type) where
  zero : R
  one : R
  add : R → R → R
  sub : R → R → R
  mul : R → R → R
  div : R → Nat → R
  neg : R → R
  exp : R → R
  sample : Nat → R

/-- A computable weight model over the rationals (the `exp` interpretation
is irrelevant to the structural claims; any computable function serves). -/
def ratWM : WeightModel ℚ where
  zero := 0
  one := 1
  add := fun a b => a + b
  sub := fun a b => a - b
  mul := fun a b => a * b
  div := fun a n => a / (n : ℚ)
  neg := fun a => -a
  exp := fun a => 1 + a
  sample := fun k => (k : ℚ)

/-- The `Edge` struct of `graph.rs` (endpoint indices and a weight). -/
structure Edge (R : Type) where
  u : Nat
  v : Nat
  w : R

/-- The `FatComponent` struct of `complete/sampler.rs`. -/
structure FatComponent where
  root : Nat
  size : Nat
  remainders : List Nat
  deriving DecidableEq, Repr

/-- The `FatComponentSampler` struct. -/
structure FatComponentSampler (R : Type) where
  inv_weight : R
  fat_component : Option FatComponent
  total_count : Nat
  set : SizedUnionFind
  rng : Rng

/-- The weight-accumulator advance of one `next` call (claim C5): with the
free-edge count at entry as rate, the additive update is taken above the
`1 << 16` threshold, the multiplicative update at or below it. -/
def advanceInv (wm : WeightModel R) (w : R) (fe : Nat) (x : Nat) : R :=
  if fe > 2 ^ 16 then wm.sub w (wm.div (wm.sample x) fe)
  else wm.mul w (wm.exp (wm.div (wm.neg (wm.sample x)) fe))

/-- Collect, in order, the points of the given list whose root differs
from `r` (the inner scan of `find_fat_component`); each `root` call may
path-split, so the state is threaded. -/
def collectRemainders (set : SizedUnionFind) (r : Nat) :
    List Nat → Option (SizedUnionFind × List Nat)
  | [] => some (set, [])
  | w :: ws =>
    match set.root w with
    | none => none
    | some (set1, rw) =>
      match collectRemainders set1 r ws with
      | none => none
      | some (set2, rest) => some (set2, if rw ≠ r then w :: rest else rest)

/-- Scan of `find_fat_component`: find the first point whose component
holds at least half of all points, record its root and size, then collect
every point outside it. -/
def findFatAux (set : SizedUnionFind) : List Nat → Option (SizedUnionFind × Option FatComponent)
  | [] => some (set, none)
  | v :: vs =>
    match set.sizeP v with
    | none => none
    | some (set1, sv) =>
      if sv * 2 ≥ set1.total_size then
        match set1.root v with
        | none => none
        | some (set2, r) =>
          match set2.sizeP v with
          | none => none
          | some (set3, sv2) =>
            match collectRemainders set3 r (List.range set3.total_size) with
            | none => none
            | some (set4, rem) => some (set4, some { root := r, size := sv2, remainders := rem })
      else findFatAux set1 vs

/-- The `find_fat_component` function: one scan over `set.iter()`. -/
def find_fat_component (set : SizedUnionFind) : Option (SizedUnionFind × Option FatComponent) :=
  findFatAux set (List.range set.total_size)

/-- Filtering pass of `update_fat_component`: keep the remainder entries
whose root differs from the fat root, in order, threading the state. -/
def filterRemainders (set : SizedUnionFind) (r : Nat) :
    List Nat → Option (SizedUnionFind × List Nat)
  | [] => some (set, [])
  | w :: ws =>
    match set.root w with
    | none => none
    | some (set1, rw) =>
      match filterRemainders set1 r ws with
      | none => none
      | some (set2, rest) => some (set2, if rw ≠ r then w :: rest else rest)

/-- The `update_fat_component` function: re-resolve the tracked root and
size, then compact the remainder list only when the stale entries would
exceed half of it, i.e. when `(N - fat_size) * 2 < remainders.len()`. -/
def update_fat_component (set : SizedUnionFind) (c : FatComponent) :
    Option (SizedUnionFind × FatComponent) :=
  match set.root c.root with
  | none => none
  | some (set1, r) =>
    match set1.sizeP r with
    | none => none
    | some (set2, s) =>
      if (set2.total_size - s) * 2 < c.remainders.length then
        match filterRemainders set2 r c.remainders with
        | none => none
        | some (set3, rem) => some (set3, { root := r, size := s, remainders := rem })
      else some (set2, { root := r, size := s, remainders := c.remainders })

/-- The `sample_sparse_edge` rejection loop: draw two uniform vertices and
retry while they are in the same component. -/
def sample_sparse_edge (rng : Rng) (set : SizedUnionFind) :
    Nat → Option (Nat × Nat × SizedUnionFind × Rng)
  | 0 => none
  | fuel + 1 =>
    let d1 := rng.next
    let d2 := d1.2.next
    let u := d1.1 % set.total_size
    let v := d2.1 % set.total_size
    match set.same_set u v with
    | none => none
    | some (set1, b) =>
      if b then sample_sparse_edge d2.2 set1 fuel else some (u, v, set1, d2.2)

/-- The `sample_component` rejection loop: draw uniform vertices until one
resolves to the fat root. -/
def sample_component (rng : Rng) (set : SizedUnionFind) (c : FatComponent) :
    Nat → Option (Nat × SizedUnionFind × Rng)
  | 0 => none
  | fuel + 1 =>
    let d := rng.next
    let u := d.1 % set.total_size
    match set.root u with
    | none => none
    | some (set1, r) =>
      if r = c.root then some (u, set1, d.2) else sample_component d.2 set1 c fuel

/-- The `sample_remainder` rejection loop: draw indices into the remainder
list until the entry resolves outside the fat root (`gen_range` panics on
an empty range, modelled as failure). -/
def sample_remainder (rng : Rng) (set : SizedUnionFind) (c : FatComponent) :
    Nat → Option (Nat × SizedUnionFind × Rng)
  | 0 => none
  | fuel + 1 =>
    if c.remainders.length = 0 then none
    else
      let d := rng.next
      let u := c.remainders.getD (d.1 % c.remainders.length) 0
      match set.root u with
      | none => none
      | some (set1, r) =>
        if r ≠ c.root then some (u, set1, d.2) else sample_remainder d.2 set1 c fuel

/-- The remainder-remainder branch of `sample_component_edge`: draw two
remainder vertices and retry while they are in the same component. -/
def sampleRemainderPair (rng : Rng) (set : SizedUnionFind) (c : FatComponent) :
    Nat → Option (Nat × Nat × SizedUnionFind × Rng)
  | 0 => none
  | fuel + 1 =>
    match sample_remainder rng set c (fuel + 1) with
    | none => none
    | some (u, set1, rng1) =>
      match sample_remainder rng1 set1 c (fuel + 1) with
      | none => none
      | some (v, set2, rng2) =>
        match set2.same_set u v with
        | none => none
        | some (set3, b) =>
          if b then sampleRemainderPair rng2 set3 c fuel
          else some (u, v, set3, rng2)

/-- The `sample_component_edge` function.  The source computes
`p = fat_size * remainder_size / active` and calls `rng.gen_bool(p)`; the
Boolean outcome is read from the stream (one draw), the numeric value of
`p` only shapes the distribution.  On `true` it pairs one fat-component
vertex with one remainder vertex; otherwise it draws a remainder pair. -/
def sample_component_edge (rng : Rng) (set : SizedUnionFind) (c : FatComponent) (fuel : Nat) :
    Option (Nat × Nat × SizedUnionFind × Rng) :=
  let d := rng.next
  if d.1 % 2 = 1 then
    match sample_component d.2 set c fuel with
    | none => none
    | some (u, set1, rng2) =>
      match sample_remainder rng2 set1 c fuel with
      | none => none
      | some (v, set2, rng3) => some (u, v, set2, rng3)
  else
    sampleRemainderPair d.2 set c fuel

/-- The retry loop at the end of `FatComponentSampler::next`: draw a
candidate edge (fat-aware or sparse), `unite` it, `continue` on failure,
and on success decrement the quota and emit the edge with weight
`1.0 - inv_weight`. -/
def nextLoop (wm : WeightModel R) (st : FatComponentSampler R) :
    Nat → Option (Option (Edge R) × FatComponentSampler R)
  | 0 => none
  | fuel + 1 =>
    let drawn :=
      match st.fat_component with
      | some c => sample_component_edge st.rng st.set c (fuel + 1)
      | none => sample_sparse_edge st.rng st.set (fuel + 1)
    match drawn with
    | none => none
    | some (u, v, set1, rng1) =>
      match set1.unite u v with
      | none => none
      | some (set2, ok) =>
        if ok then
          some (some { u := u, v := v, w := wm.sub wm.one st.inv_weight },
            { st with set := set2, rng := rng1, total_count := st.total_count - 1 })
        else nextLoop wm { st with set := set2, rng := rng1 } fuel

/-- `FatComponentSampler::next`: return `None` when no free edge or no
quota remains; otherwise advance the weight accumulator with the current
`free_edges` as rate, refresh or detect the fat component, and run the
rejection loop. -/
def next (wm : WeightModel R) (st : FatComponentSampler R) (fuel : Nat) :
    Option (Option (Edge R) × FatComponentSampler R) :=
  if st.set.free_edges = 0 ∨ st.total_count = 0 then some (none, st)
  else
    let d := st.rng.next
    let inv1 :=
      if st.set.free_edges > 2 ^ 16 then
        wm.sub st.inv_weight (wm.div (wm.sample d.1) st.set.free_edges)
      else
        wm.mul st.inv_weight (wm.exp (wm.div (wm.neg (wm.sample d.1)) st.set.free_edges))
    let afterUpd : Option (SizedUnionFind × Option FatComponent) :=
      match st.fat_component with
      | some c =>
        match update_fat_component st.set c with
        | none => none
        | some x => some (x.1, some x.2)
      | none => some (st.set, none)
    match afterUpd with
    | none => none
    | some (set1, fat1) =>
      let afterFind : Option (SizedUnionFind × Option FatComponent) :=
        if set1.free_edges * 2 < set1.total_edges ∧ fat1 = none then
          find_fat_component set1
        else some (set1, fat1)
      match afterFind with
      | none => none
      | some (set2, fat2) =>
        nextLoop wm
          { inv_weight := inv1, fat_component := fat2, total_count := st.total_count,
            set := set2, rng := d.2 } fuel

/-- `FatComponentSampler::new`: unit weight, fresh union-find, quota
`size - 1`, no fat component.  Fails exactly when the union-find
constructor does (the struct literal builds `set` before `total_count`,
so for `size = 0` the `Uniform::new(0, 0)` panic strikes first). -/
def FatComponentSampler.new (wm : WeightModel R) (rng : Rng) (size : Nat) :
    Option (FatComponentSampler R) :=
  match SizedUnionFind.new size with
  | none => none
  | some set =>
    some { inv_weight := wm.one, fat_component := none, total_count := size - 1,
           set := set, rng := rng }

/-- Drive the sampler to exhaustion, as `complete::mst` does: pull edges
until `next` returns `None`, collecting them in order.  The outer `Nat`
bounds the number of pulls (model fuel). -/
def runSampler (wm : WeightModel R) :
    Nat → FatComponentSampler R → Nat → Option (List (Edge R) × FatComponentSampler R)
  | 0, _, _ => none
  | steps + 1, st, fuel =>
    match next wm st fuel with
    | none => none
    | some (none, st') => some ([], st')
    | some (some e, st') =>
      match runSampler wm steps st' fuel with
      | none => none
      | some x => some (e :: x.1, x.2)

/-- `complete::mst`: run a fresh sampler to exhaustion and accumulate the
edge weights. -/
def mst (wm : WeightModel R) (size : Nat) (rng : Rng) (steps fuel : Nat) : Option R :=
  match FatComponentSampler.new wm rng size with
  | none => none
  | some st =>
    match runSampler wm steps st fuel with
    | none => none
    | some x => some (x.1.foldl (fun acc e => wm.add acc e.w) wm.zero)

/-- `run_trial` of `main.rs` (the timing side channel is not modelled):
dimension 0 runs the core sampler, every other dimension yields `0.0`. -/
def run_trial (wm : WeightModel R) (num_points dimension : Nat) (rng : Rng)
    (steps fuel : Nat) : Option R :=
  match dimension with
  | 0 => mst wm num_points rng steps fuel
  | _ + 1 => some wm.zero

/-- The dimension handling of `main`: the clap parser accepts only
`0..=4`, `main` rejects `dimension == 1` with an error, and then runs the
requested trials (aggregation into mean/error is outside the core). -/
def main_run (wm : WeightModel R) (num_points num_trials dimension : Nat)
    (trial_rng : Nat → Rng) (steps fuel : Nat) : Except String (List R) :=
  if 4 < dimension then Except.error "invalid value for dimension"
  else if dimension = 1 then Except.error "dimension 1 is not supported!"
  else
    match (List.range num_trials).mapM
        (fun i => run_trial wm num_points dimension (trial_rng i) steps fuel) with
    | none => Except.error "trial ran out of model fuel"
    | some ws => Except.ok ws

/-- Effect of a read-only operation (`root`, `size`, `root_size`,
`same_set`, and the scans built from them): counters untouched, the
partition intact, and only parent slots rewritten — to parent values. -/
structure ReadEffect (uf uf' : SizedUnionFind) : Prop where
  size_eq : uf'.size = uf.size
  total_eq : uf'.total_edges = uf.total_edges
  internal_eq : uf'.total_internal = uf.total_internal
  len_eq : uf'.data.length = uf.data.length
  inc : Increasing uf'.data
  roots : ∀ w, rootN uf'.data w = rootN uf.data w
  slots : ∀ x, slotL uf'.data x = slotL uf.data x ∨
    ∃ p q, slotL uf.data x = .Parent p ∧ slotL uf'.data x = .Parent q

/-- Observable state of the union-find as claim C6 reads it: the value of
every root lookup, every root size, the counters and the dimensions. -/
def ObsEq (uf uf' : SizedUnionFind) : Prop :=
  (∀ w, rootN uf'.data w = rootN uf.data w) ∧
  (∀ r s, slotL uf'.data r = .Size s ↔ slotL uf.data r = .Size s) ∧
  uf'.size = uf.size ∧ uf'.total_edges = uf.total_edges ∧
  uf'.total_internal = uf.total_internal ∧ uf'.data.length = uf.data.length

/-- Range discipline for a tracked fat component: every remainder entry is
a valid point. -/
def FatRangeOK (n : Nat) : Option FatComponent → Prop
  | none => True
  | some c => c.root < n ∧ ∀ w ∈ c.remainders, w < n

/-- Invariant of the sampler along a run: a well-formed union-find whose
component count always exceeds the remaining edge quota by exactly one. -/
def SamplerInv (st : FatComponentSampler R) : Prop :=
  WF st.set ∧ numRoots st.set.data = st.total_count + 1 ∧
    FatRangeOK st.set.size st.fat_component

/-- A concrete random stream for evaluating the model on examples: raw
draws taken from a list, zero past its end. -/
def cRngL (l : List Nat) : Rng :=
  { stream := fun n => l.getD n 0, pos := 0 }

/-- Fallback union-find used when destructuring optional results on
concrete examples. -/
def junkUF : SizedUnionFind :=
  { data := [], size := 0, total_edges := 0, total_internal := 0 }

/-- Fallback sampler state used when destructuring optional results on
concrete examples. -/
def junkSampler : FatComponentSampler ℚ :=
  { inv_weight := 0, fat_component := none, total_count := 0,
    set := junkUF, rng := cRngL [] }

/- ------------------------------------------------------------------ -/
/- Theorems.                                                           -/
/- ------------------------------------------------------------------ -/

theorem slotL_set (data : List LinkSize) (i j : Nat) (a : LinkSize) :
    slotL (data.set i a) j = if i = j ∧ i < data.length then a else slotL data j := by
  rcases eq_or_ne i j with h | h
  · subst h
    by_cases hl : i < data.length
    · simp [slotL, List.getElem?_set, hl]
    · rw [slotL, List.getElem?_set]
      simp [hl, slotL, List.getElem?_eq_none (by omega : data.length ≤ i)]
  · simp [slotL, List.getElem?_set, h, fun hc : i = j ∧ i < data.length => h hc.1]

theorem slotL_out (data : List LinkSize) (u : Nat) (h : data.length ≤ u) :
    slotL data u = .Size 0 := by
  simp [slotL, List.getElem?_eq_none h]

theorem slotL_parent_lt (data : List LinkSize) (u p : Nat)
    (h : slotL data u = .Parent p) : u < data.length := by
  by_contra hc
  rw [slotL_out data u (by omega)] at h
  exact LinkSize.noConfusion h

theorem rootNAux_mono (data : List LinkSize) :
    ∀ fuel u fuel' r, fuel ≤ fuel' → rootNAux data u fuel = some r →
      rootNAux data u fuel' = some r := by
  intro fuel
  induction fuel with
  | zero => intro u fuel' r _ h; simp [rootNAux] at h
  | succ f ih =>
    intro u fuel' r hle h
    obtain ⟨f', rfl⟩ : ∃ f', fuel' = f' + 1 := ⟨fuel' - 1, by omega⟩
    rw [rootNAux] at h ⊢
    cases hslot : slotL data u with
    | Size s => rw [hslot] at h; exact h
    | Parent p => rw [hslot] at h; exact ih p f' r (by omega) h

theorem rootNAux_total (data : List LinkSize) (hinc : Increasing data) :
    ∀ fuel u, u < data.length → data.length ≤ u + fuel →
      ∃ r, rootNAux data u fuel = some r ∧ u ≤ r ∧ r < data.length ∧
        isRootSlot data r = true := by
  intro fuel
  induction fuel with
  | zero => intro u hu hle; omega
  | succ f ih =>
    intro u hu hle
    cases hslot : slotL data u with
    | Size s =>
      exact ⟨u, by rw [rootNAux, hslot], le_refl u, hu, by simp [isRootSlot, hslot]⟩
    | Parent p =>
      obtain ⟨hup, hp⟩ := hinc u p hslot
      obtain ⟨r, h1, h2, h3, h4⟩ := ih p hp (by omega)
      exact ⟨r, by rw [rootNAux, hslot]; exact h1, by omega, h3, h4⟩

theorem rootN_root (data : List LinkSize) (u s : Nat) (h : slotL data u = .Size s) :
    rootN data u = some u := by
  rw [rootN, rootNAux, h]

theorem rootN_out (data : List LinkSize) (u : Nat) (h : data.length ≤ u) :
    rootN data u = some u :=
  rootN_root data u 0 (slotL_out data u h)

theorem rootN_total (data : List LinkSize) (hinc : Increasing data) (u : Nat) :
    ∃ r, rootN data u = some r ∧ u ≤ r ∧ isRootSlot data r = true := by
  by_cases hu : u < data.length
  · obtain ⟨r, h1, h2, _, h4⟩ :=
      rootNAux_total data hinc (data.length + 1) u hu (by omega)
    exact ⟨r, h1, h2, h4⟩
  · refine ⟨u, rootN_out data u (by omega), le_refl u, ?_⟩
    simp [isRootSlot, slotL_out data u (by omega)]

theorem rootN_lt_len (data : List LinkSize) (hinc : Increasing data) (u r : Nat)
    (hu : u < data.length) (h : rootN data u = some r) : r < data.length := by
  obtain ⟨r', h1, _, h3, _⟩ :=
    rootNAux_total data hinc (data.length + 1) u hu (by omega)
  rw [rootN] at h; rw [h] at h1; cases h1; exact h3

theorem rootN_step (data : List LinkSize) (hinc : Increasing data) (u p : Nat)
    (h : slotL data u = .Parent p) : rootN data u = rootN data p := by
  obtain ⟨hup, hp⟩ := hinc u p h
  obtain ⟨r, hr, _, _, _⟩ :=
    rootNAux_total data hinc (data.length) p hp (by omega)
  have h1 : rootNAux data p (data.length + 1) = some r :=
    rootNAux_mono data data.length p (data.length + 1) r (by omega) hr
  have h2 : rootN data u = some r := by
    rw [rootN, rootNAux, h]; exact hr
  rw [h2, rootN, h1]

theorem rootN_le (data : List LinkSize) (hinc : Increasing data) :
    ∀ fuel u r, rootNAux data u fuel = some r → u ≤ r := by
  intro fuel
  induction fuel with
  | zero => intro u r h; simp [rootNAux] at h
  | succ f ih =>
    intro u r h
    rw [rootNAux] at h
    cases hslot : slotL data u with
    | Size s => rw [hslot] at h; cases h; exact le_refl u
    | Parent p =>
      rw [hslot] at h
      have := ih p r h
      have := (hinc u p hslot).1
      omega

theorem rootN_le' (data : List LinkSize) (hinc : Increasing data) (u r : Nat)
    (h : rootN data u = some r) : u ≤ r :=
  rootN_le data hinc _ u r h

theorem rootN_isRoot (data : List LinkSize) (hinc : Increasing data) (u r : Nat)
    (h : rootN data u = some r) : isRootSlot data r = true := by
  obtain ⟨r', h1, _, h3⟩ := rootN_total data hinc u
  rw [h] at h1; cases h1; exact h3

theorem rootN_parentL (data : List LinkSize) (hinc : Increasing data) (u : Nat) :
    rootN data (parentL data u) = rootN data u := by
  cases hslot : slotL data u with
  | Size s => rw [parentL, hslot]
  | Parent p => rw [parentL, hslot]; exact (rootN_step data hinc u p hslot).symm

theorem rootN_set_parent (data : List LinkSize) (hinc : Increasing data)
    (x p t : Nat) (hx : slotL data x = .Parent p) (ht : rootN data t = rootN data x)
    (hxt : x < t) (htl : t < data.length) :
    Increasing (data.set x (.Parent t)) ∧
      ∀ w, rootN (data.set x (.Parent t)) w = rootN data w := by
  have hxl : x < data.length := slotL_parent_lt data x p hx
  have hlen : (data.set x (.Parent t)).length = data.length := List.length_set data x _
  have hslot' : ∀ j, slotL (data.set x (.Parent t)) j =
      if x = j then .Parent t else slotL data j := by
    intro j
    rw [slotL_set]
    rcases eq_or_ne x j with rfl | h
    · simp [hxl]
    · simp [h]
  have hinc' : Increasing (data.set x (.Parent t)) := by
    intro u q hq
    rw [hslot' u] at hq
    rcases eq_or_ne x u with rfl | h
    · rw [if_pos rfl] at hq
      cases hq
      exact ⟨hxt, by omega⟩
    · rw [if_neg h] at hq
      have := hinc u q hq
      omega
  refine ⟨hinc', fun w => ?_⟩
  have key : ∀ k w, data.length ≤ w + k →
      rootN (data.set x (.Parent t)) w = rootN data w := by
    intro k
    induction k with
    | zero =>
      intro w hw
      rw [rootN_out _ w (by omega : data.length ≤ w),
        rootN_out _ w (by rw [hlen]; omega)]
    | succ k ih =>
      intro w hw
      by_cases hwl : w < data.length
      · cases hslot : slotL data w with
        | Size s =>
          have hwx : x ≠ w := by rintro rfl; rw [hx] at hslot; cases hslot
          rw [rootN_root data w s hslot,
            rootN_root _ w s (by rw [hslot' w, if_neg hwx]; exact hslot)]
        | Parent q =>
          rcases eq_or_ne w x with rfl | hwx
          · have hstep' : rootN (data.set w (.Parent t)) w =
                rootN (data.set w (.Parent t)) t :=
              rootN_step _ hinc' w t (by rw [hslot' w, if_pos rfl])
            rw [hstep', ih t (by omega)]
            exact ht
          · have hq := hinc w q hslot
            have hstep : rootN data w = rootN data q := rootN_step data hinc w q hslot
            have hstep' : rootN (data.set x (.Parent t)) w =
                rootN (data.set x (.Parent t)) q :=
              rootN_step _ hinc' w q (by rw [hslot' w, if_neg (Ne.symm hwx)]; exact hslot)
            rw [hstep', hstep, ih q (by omega)]
      · rw [rootN_out _ w (by omega : data.length ≤ w),
          rootN_out _ w (by rw [hlen]; omega)]
  exact key data.length w (by omega)

theorem rootN_set_root_merge (data : List LinkSize) (hinc : Increasing data)
    (r s t rt : Nat) (hr : slotL data r = .Size s) (hts : rootN data t = some rt)
    (hne : rt ≠ r) (hrt : r < t) (htl : t < data.length) :
    Increasing (data.set r (.Parent t)) ∧
      ∀ w, rootN (data.set r (.Parent t)) w =
        if rootN data w = some r then some rt else rootN data w := by
  have hrl : r < data.length := by omega
  have hlen : (data.set r (.Parent t)).length = data.length := List.length_set data r _
  have hslot' : ∀ j, slotL (data.set r (.Parent t)) j =
      if r = j then .Parent t else slotL data j := by
    intro j
    rw [slotL_set]
    rcases eq_or_ne r j with rfl | h
    · simp [hrl]
    · simp [h]
  have hinc' : Increasing (data.set r (.Parent t)) := by
    intro u q hq
    rw [hslot' u] at hq
    rcases eq_or_ne r u with rfl | h
    · rw [if_pos rfl] at hq
      cases hq
      exact ⟨hrt, by omega⟩
    · rw [if_neg h] at hq
      have := hinc u q hq
      omega
  refine ⟨hinc', fun w => ?_⟩
  have key : ∀ k w, data.length ≤ w + k →
      rootN (data.set r (.Parent t)) w =
        if rootN data w = some r then some rt else rootN data w := by
    intro k
    induction k with
    | zero =>
      intro w hw
      rw [rootN_out _ w (by omega : data.length ≤ w),
        rootN_out _ w (by rw [hlen]; omega)]
      rw [if_neg]
      intro hc
      cases hc
      omega
    | succ k ih =>
      intro w hw
      by_cases hwl : w < data.length
      · cases hslot : slotL data w with
        | Size s' =>
          rcases eq_or_ne w r with rfl | hwr
          · have hstep' : rootN (data.set w (.Parent t)) w =
                rootN (data.set w (.Parent t)) t :=
              rootN_step _ hinc' w t (by rw [hslot' w, if_pos rfl])
            rw [hstep', ih t (by omega), rootN_root data w s' hslot, if_pos rfl,
              if_neg (by rw [hts]; exact fun hc => hne (Option.some_injective _ hc)), hts]
          · rw [rootN_root data w s' hslot,
              rootN_root _ w s' (by rw [hslot' w, if_neg (Ne.symm hwr)]; exact hslot),
              if_neg (fun hc => hwr (Option.some_injective _ hc))]
        | Parent q =>
          have hwr : w ≠ r := by rintro rfl; rw [hr] at hslot; cases hslot
          have hq := hinc w q hslot
          have hstep : rootN data w = rootN data q := rootN_step data hinc w q hslot
          have hstep' : rootN (data.set r (.Parent t)) w =
              rootN (data.set r (.Parent t)) q :=
            rootN_step _ hinc' w q (by rw [hslot' w, if_neg (Ne.symm hwr)]; exact hslot)
          rw [hstep', hstep, ih q (by omega)]
      · rw [rootN_out _ w (by omega : data.length ≤ w),
          rootN_out _ w (by rw [hlen]; omega)]
        rw [if_neg]
        intro hc
        cases hc
        omega
  exact key data.length w (by omega)

theorem rootN_set_size (data : List LinkSize) (hinc : Increasing data)
    (r s s' : Nat) (hr : slotL data r = .Size s) :
    Increasing (data.set r (.Size s')) ∧
      ∀ w, rootN (data.set r (.Size s')) w = rootN data w := by
  have hlen : (data.set r (.Size s')).length = data.length := List.length_set data r _
  have hslot' : ∀ j, slotL (data.set r (.Size s')) j =
      if r = j ∧ r < data.length then .Size s' else slotL data j :=
    fun j => slotL_set data r j _
  have hinc' : Increasing (data.set r (.Size s')) := by
    intro u q hq
    rw [hslot' u] at hq
    by_cases h : r = u ∧ r < data.length
    · rw [if_pos h] at hq; cases hq
    · rw [if_neg h] at hq
      have := hinc u q hq
      omega
  refine ⟨hinc', fun w => ?_⟩
  have key : ∀ k w, data.length ≤ w + k →
      rootN (data.set r (.Size s')) w = rootN data w := by
    intro k
    induction k with
    | zero =>
      intro w hw
      rw [rootN_out _ w (by omega : data.length ≤ w),
        rootN_out _ w (by rw [hlen]; omega)]
    | succ k ih =>
      intro w hw
      by_cases hwl : w < data.length
      · cases hslot : slotL data w with
        | Size s2 =>
          rcases eq_or_ne r w with rfl | hwr
          · rw [rootN_root data r s2 hslot,
              rootN_root _ r s' (by rw [hslot' r, if_pos ⟨rfl, by omega⟩])]
          · rw [rootN_root data w s2 hslot,
              rootN_root _ w s2 (by rw [hslot' w, if_neg (fun hc => hwr hc.1)]; exact hslot)]
        | Parent q =>
          have hwr : r ≠ w := by rintro rfl; rw [hr] at hslot; cases hslot
          have hq := hinc w q hslot
          have hstep : rootN data w = rootN data q := rootN_step data hinc w q hslot
          have hstep' : rootN (data.set r (.Size s')) w =
              rootN (data.set r (.Size s')) q :=
            rootN_step _ hinc' w q (by rw [hslot' w, if_neg (fun hc => hwr hc.1)]; exact hslot)
          rw [hstep', hstep, ih q (by omega)]
      · rw [rootN_out _ w (by omega : data.length ≤ w),
          rootN_out _ w (by rw [hlen]; omega)]
  exact key data.length w (by omega)

theorem rootSizeAux_spec :
    ∀ fuel data u, Increasing data → u < data.length → data.length ≤ u + fuel →
    ∃ d r s, rootSizeAux data u fuel = some (d, r, s) ∧
      rootN data u = some r ∧ slotL data r = .Size s ∧
      d.length = data.length ∧ Increasing d ∧
      (∀ w, rootN d w = rootN data w) ∧
      (∀ x, slotL d x = slotL data x ∨
        ∃ p q, slotL data x = .Parent p ∧ slotL d x = .Parent q) := by
  intro fuel
  induction fuel with
  | zero => intro data u _ h1 h2; omega
  | succ f ih =>
    intro data u hinc hu hfuel
    cases hslotu : slotL data u with
    | Size s0 =>
      refine ⟨data, u, s0, ?_, rootN_root data u s0 hslotu, hslotu, rfl, hinc,
        fun w => rfl, fun x => Or.inl rfl⟩
      have hpl : parentL data u = u := by rw [parentL, hslotu]
      rw [rootSizeAux, hpl, hslotu]
    | Parent temp =>
      have hpl : parentL data u = temp := by rw [parentL, hslotu]
      obtain ⟨hut, htlen⟩ := hinc u temp hslotu
      cases htemp : slotL data temp with
      | Size s =>
        refine ⟨data, temp, s, ?_, ?_, htemp, rfl, hinc, fun w => rfl, fun x => Or.inl rfl⟩
        · rw [rootSizeAux, hpl, htemp]
        · rw [rootN_step data hinc u temp hslotu, rootN_root data temp s htemp]
      | Parent g =>
        obtain ⟨htg, hglen⟩ := hinc temp g htemp
        obtain ⟨hinc1, hroots1⟩ := rootN_set_parent data hinc u temp g hslotu
          (by rw [rootN_step data hinc u temp hslotu, rootN_step data hinc temp g htemp])
          (by omega) hglen
        have hlen1 : (data.set u (.Parent g)).length = data.length :=
          List.length_set data u _
        obtain ⟨d, r, s, hrun, h2, h3, h4, h5, h6, h7⟩ :=
          ih (data.set u (.Parent g)) temp hinc1 (by omega) (by omega)
        have hru : r ≠ u := by
          intro hc
          subst hc
          rw [slotL_set, if_pos ⟨rfl, hu⟩] at h3
          cases h3
        refine ⟨d, r, s, ?_, ?_, ?_, by rw [h4, hlen1], h5, ?_, ?_⟩
        · rw [rootSizeAux, hpl, htemp]
          exact hrun
        · rw [rootN_step data hinc u temp hslotu, ← hroots1 temp]
          exact h2
        · have hsame : slotL (data.set u (.Parent g)) r = slotL data r := by
            rw [slotL_set, if_neg (fun hc => hru hc.1.symm)]
          rw [← hsame]
          exact h3
        · exact fun w => (h6 w).trans (hroots1 w)
        · intro x
          have hx1 : slotL (data.set u (.Parent g)) x =
              if u = x ∧ u < data.length then .Parent g else slotL data x :=
            slotL_set data u x _
          rcases h7 x with h | ⟨p, q, hp, hq⟩
          · by_cases hux : u = x
            · subst hux
              rw [hx1, if_pos ⟨rfl, hu⟩] at h
              exact Or.inr ⟨temp, g, hslotu, h⟩
            · rw [hx1, if_neg (fun hc => hux hc.1)] at h
              exact Or.inl h
          · by_cases hux : u = x
            · subst hux
              exact Or.inr ⟨temp, q, hslotu, hq⟩
            · rw [hx1, if_neg (fun hc => hux hc.1)] at hp
              exact Or.inr ⟨p, q, hp, hq⟩

theorem root_size_spec (uf : SizedUnionFind) (hinc : Increasing uf.data) (u : Nat) :
    ∃ uf' r s, uf.root_size u = some (uf', r, s) ∧
      rootN uf.data u = some r ∧ slotL uf.data r = .Size s ∧ ReadEffect uf uf' := by
  rw [SizedUnionFind.root_size]
  cases hslot : slotL uf.data u with
  | Size s =>
    exact ⟨uf, u, s, rfl, rootN_root _ u s hslot, hslot,
      ⟨rfl, rfl, rfl, rfl, hinc, fun w => rfl, fun x => Or.inl rfl⟩⟩
  | Parent p =>
    have hu : u < uf.data.length := slotL_parent_lt _ u p hslot
    obtain ⟨d, r, s, hrun, h2, h3, h4, h5, h6, h7⟩ :=
      rootSizeAux_spec (uf.data.length + 1) uf.data u hinc hu (by omega)
    rw [hrun]
    exact ⟨{ uf with data := d }, r, s, rfl, h2, h3, ⟨rfl, rfl, rfl, h4, h5, h6, h7⟩⟩

theorem ReadEffect.refl_of (uf : SizedUnionFind) (hinc : Increasing uf.data) :
    ReadEffect uf uf :=
  ⟨rfl, rfl, rfl, rfl, hinc, fun _ => rfl, fun _ => Or.inl rfl⟩

theorem ReadEffect.trans_of {a b c : SizedUnionFind}
    (h1 : ReadEffect a b) (h2 : ReadEffect b c) : ReadEffect a c := by
  refine ⟨h2.size_eq.trans h1.size_eq, h2.total_eq.trans h1.total_eq,
    h2.internal_eq.trans h1.internal_eq, h2.len_eq.trans h1.len_eq, h2.inc,
    fun w => (h2.roots w).trans (h1.roots w), fun x => ?_⟩
  rcases h2.slots x with h | ⟨p, q, hp, hq⟩
  · rcases h1.slots x with h' | ⟨p, q, hp, hq⟩
    · exact Or.inl (h.trans h')
    · exact Or.inr ⟨p, q, hp, h.trans hq⟩
  · rcases h1.slots x with h' | ⟨p', q', hp', hq'⟩
    · exact Or.inr ⟨p, q, h'.symm.trans hp, hq⟩
    · exact Or.inr ⟨p', q, hp', hq⟩

theorem fiber_congr {d d' : List LinkSize} (hlen : d'.length = d.length)
    (hroots : ∀ w, rootN d' w = rootN d w) (r : Nat) : fiber d' r = fiber d r := by
  unfold fiber
  rw [hlen]
  apply Finset.filter_congr
  intro u _
  rw [hroots u]

theorem samePairs_congr {d d' : List LinkSize} (hlen : d'.length = d.length)
    (hroots : ∀ w, rootN d' w = rootN d w) : samePairs d' = samePairs d := by
  unfold samePairs
  rw [hlen]
  apply congrArg
  apply Finset.filter_congr
  intro p _
  rw [hroots p.1, hroots p.2]

theorem numRoots_congr {d d' : List LinkSize} (hlen : d'.length = d.length)
    (hslots : ∀ x, slotL d' x = slotL d x ∨
      ∃ p q, slotL d x = .Parent p ∧ slotL d' x = .Parent q) :
    numRoots d' = numRoots d := by
  unfold numRoots
  rw [hlen]
  apply congrArg
  apply Finset.filter_congr
  intro x _
  rcases hslots x with h | ⟨p, q, hp, hq⟩
  · rw [isRootSlot, isRootSlot, h]
  · rw [isRootSlot, isRootSlot, hp, hq]

theorem WF_of_ReadEffect {uf uf' : SizedUnionFind} (hwf : WF uf)
    (h : ReadEffect uf uf') : WF uf' := by
  refine ⟨(h.len_eq.trans hwf.len).trans h.size_eq.symm, h.size_eq ▸ hwf.pos, h.inc, ?_, ?_, ?_⟩
  · intro r s hs hr
    have hsl : slotL uf.data r = .Size s := by
      rcases h.slots r with h' | ⟨p, q, hp, hq⟩
      · rw [← h']; exact hs
      · rw [hq] at hs; cases hs
    have hr' : r < uf.data.length := by
      have := h.len_eq
      omega
    rw [hwf.sizes r s hsl hr', fiber_congr h.len_eq h.roots r]
  · rw [h.total_eq, h.size_eq]; exact hwf.total
  · rw [h.internal_eq, samePairs_congr h.len_eq h.roots]; exact hwf.internal

theorem root_spec (uf : SizedUnionFind) (hinc : Increasing uf.data) (u : Nat) :
    ∃ uf' r, uf.root u = some (uf', r) ∧ rootN uf.data u = some r ∧
      ReadEffect uf uf' := by
  obtain ⟨uf', r, s, hrun, h2, _, h4⟩ := root_size_spec uf hinc u
  exact ⟨uf', r, by rw [SizedUnionFind.root, hrun]; rfl, h2, h4⟩

theorem sizeP_spec (uf : SizedUnionFind) (hinc : Increasing uf.data) (u : Nat) :
    ∃ uf' s r, uf.sizeP u = some (uf', s) ∧ rootN uf.data u = some r ∧
      slotL uf.data r = .Size s ∧ ReadEffect uf uf' := by
  obtain ⟨uf', r, s, hrun, h2, h3, h4⟩ := root_size_spec uf hinc u
  exact ⟨uf', s, r, by rw [SizedUnionFind.sizeP, hrun]; rfl, h2, h3, h4⟩

theorem same_set_spec (uf : SizedUnionFind) (hinc : Increasing uf.data) (u v : Nat) :
    ∃ uf' b, uf.same_set u v = some (uf', b) ∧
      (b = true ↔ rootN uf.data u = rootN uf.data v) ∧ ReadEffect uf uf' := by
  obtain ⟨uf1, ru, hrun1, h2, h4⟩ := root_spec uf hinc u
  obtain ⟨uf2, rv, hrun2, h2', h4'⟩ := root_spec uf1 h4.inc v
  refine ⟨uf2, decide (ru = rv), ?_, ?_, ReadEffect.trans_of h4 h4'⟩
  · simp only [SizedUnionFind.same_set, hrun1, hrun2]
  · rw [h2, ← h4.roots v, h2']
    simp
theorem uniteAux_same (uf : SizedUnionFind) (hinc : Increasing uf.data) :
    ∀ fuel u v queue r, rootN uf.data u = some r → rootN uf.data v = some r →
      (r - u) + (r - v) < fuel →
      uniteAux uf u v queue fuel = some (uf, false) := by
  intro fuel
  induction fuel with
  | zero => intro u v queue r _ _ h; omega
  | succ f ih =>
    intro u v queue r hru hrv hm
    rw [uniteAux]
    by_cases hpp : uf.parent u = uf.parent v
    · rw [if_pos hpp]
    · rw [if_neg hpp]
      have hpu : rootN uf.data (uf.parent u) = some r := by
        rw [SizedUnionFind.parent, rootN_parentL uf.data hinc u]; exact hru
      have hpv : rootN uf.data (uf.parent v) = some r := by
        rw [SizedUnionFind.parent, rootN_parentL uf.data hinc v]; exact hrv
      have hpur : uf.parent u ≤ r := rootN_le' uf.data hinc _ r hpu
      have hpvr : uf.parent v ≤ r := rootN_le' uf.data hinc _ r hpv
      by_cases hgt : uf.parent u > uf.parent v
      · simp only [if_pos hgt]
        -- u' = v, v' = u; parent v < parent u
        cases hslot : slotL uf.data v with
        | Size s =>
          exfalso
          have : rootN uf.data v = some v := rootN_root uf.data v s hslot
          rw [this] at hrv
          cases hrv
          -- now v = r; parent v = v = r; but parent v < parent u ≤ r
          have : uf.parent v = v := by rw [SizedUnionFind.parent, parentL, hslot]
          omega
        | Parent temp =>
          have hptemp : uf.parent v = temp := by rw [SizedUnionFind.parent, parentL, hslot]
          have hvt : v < temp := (hinc v temp hslot).1
          have hrt : rootN uf.data temp = some r := by rw [← hptemp]; exact hpv
          have htr : temp ≤ r := rootN_le' uf.data hinc temp r hrt
          exact ih temp u (queue ++ [v]) r hrt hru (by omega)
      · simp only [if_neg hgt]
        cases hslot : slotL uf.data u with
        | Size s =>
          exfalso
          have : rootN uf.data u = some u := rootN_root uf.data u s hslot
          rw [this] at hru
          cases hru
          have : uf.parent u = u := by rw [SizedUnionFind.parent, parentL, hslot]
          omega
        | Parent temp =>
          have hptemp : uf.parent u = temp := by rw [SizedUnionFind.parent, parentL, hslot]
          have hut : u < temp := (hinc u temp hslot).1
          have hrt : rootN uf.data temp = some r := by rw [← hptemp]; exact hpu
          have htr : temp ≤ r := rootN_le' uf.data hinc temp r hrt
          exact ih temp v (queue ++ [u]) r hrt hrv (by omega)

theorem unite_same (uf : SizedUnionFind) (hinc : Increasing uf.data) (u v r : Nat)
    (hru : rootN uf.data u = some r) (hrv : rootN uf.data v = some r)
    (hu : u < uf.data.length) (hv : v < uf.data.length) :
    uf.unite u v = some (uf, false) := by
  have hr : r < uf.data.length := rootN_lt_len uf.data hinc u r hu hru
  exact uniteAux_same uf hinc _ u v [] r hru hrv (by omega)

theorem mem_fiber {d : List LinkSize} {r w : Nat} :
    w ∈ fiber d r ↔ w < d.length ∧ rootN d w = some r := by
  unfold fiber
  simp [Finset.mem_filter, Finset.mem_range]

theorem fiber_disjoint (d : List LinkSize) (a b : Nat) (hab : a ≠ b) :
    Disjoint (fiber d a) (fiber d b) := by
  rw [Finset.disjoint_left]
  intro w hwa hwb
  rw [mem_fiber] at hwa hwb
  rw [hwa.2] at hwb
  exact hab (Option.some_injective _ hwb.2)

theorem fiber_merge (d dF : List LinkSize) (rGone rKeep : Nat)
    (hlen : dF.length = d.length) (hne : rGone ≠ rKeep)
    (hform : ∀ w, rootN dF w = if rootN d w = some rGone then some rKeep else rootN d w) :
    fiber dF rKeep = fiber d rGone ∪ fiber d rKeep ∧
      (∀ x, x ≠ rKeep → x ≠ rGone → fiber dF x = fiber d x) ∧
      fiber dF rGone = ∅ := by
  refine ⟨?_, ?_, ?_⟩
  · ext w
    rw [mem_fiber, Finset.mem_union, mem_fiber, mem_fiber, hlen, hform w]
    by_cases hw : rootN d w = some rGone
    · rw [if_pos hw, hw]
      simp
      exact fun h _ => h
    · rw [if_neg hw]
      constructor
      · rintro ⟨h1, h2⟩
        exact Or.inr ⟨h1, h2⟩
      · rintro (⟨h1, h2⟩ | ⟨h1, h2⟩)
        · exact absurd h2 hw
        · exact ⟨h1, h2⟩
  · intro x hxK hxG
    ext w
    rw [mem_fiber, mem_fiber, hlen, hform w]
    by_cases hw : rootN d w = some rGone
    · rw [if_pos hw]
      constructor
      · rintro ⟨h1, h2⟩
        exact absurd (Option.some_injective _ h2).symm hxK
      · rintro ⟨h1, h2⟩
        rw [hw] at h2
        exact absurd (Option.some_injective _ h2).symm hxG
    · rw [if_neg hw]
  · ext w
    simp only [mem_fiber, hform w, Finset.not_mem_empty, iff_false]
    rintro ⟨h1, h2⟩
    by_cases hw : rootN d w = some rGone
    · rw [if_pos hw] at h2
      exact hne (Option.some_injective _ h2).symm
    · rw [if_neg hw] at h2
      exact hw h2

theorem numRoots_merge (d dF : List LinkSize) (rGone : Nat)
    (hlen : dF.length = d.length) (hGr : isRootSlot d rGone = true) (hGlen : rGone < d.length)
    (hiff : ∀ x, isRootSlot dF x = true ↔ isRootSlot d x = true ∧ x ≠ rGone) :
    numRoots dF + 1 = numRoots d := by
  unfold numRoots
  rw [hlen]
  have hset : (Finset.range d.length).filter (fun r => isRootSlot dF r = true)
      = ((Finset.range d.length).filter (fun r => isRootSlot d r = true)).erase rGone := by
    ext x
    rw [Finset.mem_erase, Finset.mem_filter, Finset.mem_filter, hiff x]
    tauto
  have hmem : rGone ∈ (Finset.range d.length).filter (fun r => isRootSlot d r = true) := by
    rw [Finset.mem_filter]
    exact ⟨Finset.mem_range.2 hGlen, hGr⟩
  rw [hset, Finset.card_erase_of_mem hmem]
  have hpos : 0 < ((Finset.range d.length).filter (fun r => isRootSlot d r = true)).card :=
    Finset.card_pos.2 ⟨rGone, hmem⟩
  omega

theorem two_le_numRoots (d : List LinkSize) (r1 r2 : Nat)
    (h1 : isRootSlot d r1 = true) (h2 : isRootSlot d r2 = true) (hne : r1 ≠ r2)
    (hl1 : r1 < d.length) (hl2 : r2 < d.length) : 2 ≤ numRoots d := by
  have hsub : ({r1, r2} : Finset Nat) ⊆
      (Finset.range d.length).filter (fun r => isRootSlot d r = true) := by
    intro x hx
    rw [Finset.mem_insert, Finset.mem_singleton] at hx
    rw [Finset.mem_filter, Finset.mem_range]
    rcases hx with rfl | rfl
    · exact ⟨hl1, h1⟩
    · exact ⟨hl2, h2⟩
  have := Finset.card_le_card hsub
  rw [Finset.card_pair hne] at this
  exact this

theorem one_le_numRoots (d : List LinkSize) (hinc : Increasing d) (hpos : 0 < d.length) :
    1 ≤ numRoots d := by
  obtain ⟨r, hr, _, hroot⟩ := rootN_total d hinc 0
  have hrl : r < d.length := rootN_lt_len d hinc 0 r hpos hr
  apply Finset.card_pos.2
  exact ⟨r, by rw [Finset.mem_filter, Finset.mem_range]; exact ⟨hrl, hroot⟩⟩

theorem numRoots_one_all_same (d : List LinkSize) (hinc : Increasing d)
    (hone : numRoots d = 1) (u v : Nat) (hu : u < d.length) (hv : v < d.length) :
    rootN d u = rootN d v := by
  obtain ⟨ru, hru, _, hrootu⟩ := rootN_total d hinc u
  obtain ⟨rv, hrv, _, hrootv⟩ := rootN_total d hinc v
  have hrul : ru < d.length := rootN_lt_len d hinc u ru hu hru
  have hrvl : rv < d.length := rootN_lt_len d hinc v rv hv hrv
  have : ru = rv := by
    by_contra hne
    have := two_le_numRoots d ru rv hrootu hrootv hne hrul hrvl
    omega
  rw [hru, hrv, this]

theorem samePairs_le_allPairs (d : List LinkSize) : samePairs d ≤ allPairs d.length := by
  apply Finset.card_le_card
  intro p hp
  rw [Finset.mem_filter] at hp ⊢
  exact ⟨hp.1, hp.2.1⟩

theorem allPairs_eq (n : Nat) : allPairs n = n * (n - 1) / 2 := by
  have hcard : allPairs n = ∑ v ∈ Finset.range n, v := by
    unfold allPairs
    have hbij : ((Finset.range n ×ˢ Finset.range n).filter fun p => p.1 < p.2).card
        = ((Finset.range n).sigma fun v => Finset.range v).card := by
      apply Finset.card_bij' (fun p _ => (⟨p.2, p.1⟩ : (_ : Nat) × Nat))
        (fun q _ => (q.2, q.1))
      · intro a ha
        rw [Finset.mem_filter, Finset.mem_product, Finset.mem_range, Finset.mem_range] at ha
        rw [Finset.mem_sigma, Finset.mem_range, Finset.mem_range]
        exact ⟨ha.1.2, ha.2⟩
      · intro a ha
        rw [Finset.mem_sigma, Finset.mem_range, Finset.mem_range] at ha
        rw [Finset.mem_filter, Finset.mem_product, Finset.mem_range, Finset.mem_range]
        exact ⟨⟨by omega, ha.1⟩, ha.2⟩
      · intro a ha; rfl
      · intro a ha; rfl
    rw [hbij, Finset.card_sigma]
    simp
  have := Finset.sum_range_id_mul_two n
  omega

theorem samePairs_all (d : List LinkSize) (hinc : Increasing d)
    (hall : samePairs d = allPairs d.length) (u v : Nat)
    (hu : u < d.length) (hv : v < d.length) : rootN d u = rootN d v := by
  have hsub : ((Finset.range d.length ×ˢ Finset.range d.length).filter
      fun p => p.1 < p.2 ∧ rootN d p.1 = rootN d p.2)
      ⊆ ((Finset.range d.length ×ˢ Finset.range d.length).filter fun p => p.1 < p.2) := by
    intro p hp
    rw [Finset.mem_filter] at hp ⊢
    exact ⟨hp.1, hp.2.1⟩
  have heq := Finset.eq_of_subset_of_card_le hsub (le_of_eq hall.symm)
  have key : ∀ a b, a < d.length → b < d.length → a < b → rootN d a = rootN d b := by
    intro a b ha hb hab
    have hmem : (a, b) ∈ ((Finset.range d.length ×ˢ Finset.range d.length).filter
        fun p => p.1 < p.2) := by
      rw [Finset.mem_filter, Finset.mem_product, Finset.mem_range, Finset.mem_range]
      exact ⟨⟨ha, hb⟩, hab⟩
    rw [← heq, Finset.mem_filter] at hmem
    exact hmem.2.2
  rcases Nat.lt_trichotomy u v with h | h | h
  · exact key u v hu hv h
  · rw [h]
  · exact (key v u hv hu h).symm

theorem samePairs_lt_of_two_comps (d : List LinkSize) (x y a b : Nat)
    (hx : x < d.length) (hy : y < d.length)
    (hra : rootN d x = some a) (hrb : rootN d y = some b) (hab : a ≠ b) :
    samePairs d < allPairs d.length := by
  have hxy : x ≠ y := by
    intro hc
    subst hc
    rw [hra] at hrb
    exact hab (Option.some_injective _ hrb)
  apply Finset.card_lt_card
  constructor
  · intro p hp
    rw [Finset.mem_filter] at hp ⊢
    exact ⟨hp.1, hp.2.1⟩
  · intro hsup
    rcases Nat.lt_or_ge x y with h | h
    · have hmem : (x, y) ∈ ((Finset.range d.length ×ˢ Finset.range d.length).filter
          fun p => p.1 < p.2) := by
        rw [Finset.mem_filter, Finset.mem_product, Finset.mem_range, Finset.mem_range]
        exact ⟨⟨hx, hy⟩, h⟩
      have := hsup hmem
      rw [Finset.mem_filter] at this
      rw [hra, hrb] at this
      exact hab (Option.some_injective _ this.2.2)
    · have hlt : y < x := by omega
      have hmem : (y, x) ∈ ((Finset.range d.length ×ˢ Finset.range d.length).filter
          fun p => p.1 < p.2) := by
        rw [Finset.mem_filter, Finset.mem_product, Finset.mem_range, Finset.mem_range]
        exact ⟨⟨hy, hx⟩, hlt⟩
      have := hsup hmem
      rw [Finset.mem_filter] at this
      rw [hra, hrb] at this
      exact hab (Option.some_injective _ this.2.2).symm

theorem samePairs_merge (d dF : List LinkSize) (rGone rKeep : Nat)
    (hlen : dF.length = d.length) (hne : rGone ≠ rKeep)
    (hform : ∀ w, rootN dF w = if rootN d w = some rGone then some rKeep else rootN d w) :
    samePairs dF = samePairs d + (fiber d rGone).card * (fiber d rKeep).card := by
  unfold samePairs
  rw [hlen]
  have hsplit : ((Finset.range d.length ×ˢ Finset.range d.length).filter
        fun p => p.1 < p.2 ∧ rootN dF p.1 = rootN dF p.2)
      = ((Finset.range d.length ×ˢ Finset.range d.length).filter
        fun p => (p.1 < p.2 ∧ rootN d p.1 = rootN d p.2)
          ∨ (p.1 < p.2 ∧ ((rootN d p.1 = some rGone ∧ rootN d p.2 = some rKeep)
            ∨ (rootN d p.1 = some rKeep ∧ rootN d p.2 = some rGone)))) := by
    apply Finset.filter_congr
    intro p _
    rw [hform p.1, hform p.2]
    by_cases h1 : rootN d p.1 = some rGone
    · by_cases h2 : rootN d p.2 = some rGone
      · rw [if_pos h1, if_pos h2, h1, h2]
        simp [hne]
      · rw [if_pos h1, if_neg h2, h1]
        constructor
        · rintro ⟨hlt, heq⟩
          exact Or.inr ⟨hlt, Or.inl ⟨rfl, heq.symm⟩⟩
        · rintro (⟨hlt, heq⟩ | ⟨hlt, ⟨_, hK⟩ | ⟨hK, _⟩⟩)
          · exact absurd heq.symm h2
          · exact ⟨hlt, hK.symm⟩
          · exact absurd hK (by simp [Option.some_inj]; exact hne)
    · by_cases h2 : rootN d p.2 = some rGone
      · rw [if_neg h1, if_pos h2, h2]
        constructor
        · rintro ⟨hlt, heq⟩
          exact Or.inr ⟨hlt, Or.inr ⟨heq, rfl⟩⟩
        · rintro (⟨hlt, heq⟩ | ⟨hlt, ⟨hG, _⟩ | ⟨hK, _⟩⟩)
          · exact absurd heq h1
          · exact absurd hG h1
          · exact ⟨hlt, hK⟩
      · rw [if_neg h1, if_neg h2]
        constructor
        · rintro ⟨hlt, heq⟩
          exact Or.inl ⟨hlt, heq⟩
        · rintro (⟨hlt, heq⟩ | ⟨hlt, ⟨hG, _⟩ | ⟨_, hG⟩⟩)
          · exact ⟨hlt, heq⟩
          · exact absurd hG h1
          · exact absurd hG h2
  rw [hsplit, Finset.filter_or,
    Finset.card_union_of_disjoint ?disj]
  case disj =>
    rw [Finset.disjoint_left]
    intro p hp hp'
    rw [Finset.mem_filter] at hp hp'
    obtain ⟨_, _, hsame⟩ := hp
    obtain ⟨_, _, (⟨hG, hK⟩ | ⟨hK, hG⟩)⟩ := hp'
    · rw [hG, hK] at hsame
      exact hne (Option.some_injective _ hsame)
    · rw [hK, hG] at hsame
      exact hne (Option.some_injective _ hsame).symm
  congr 1
  have hcross : ((Finset.range d.length ×ˢ Finset.range d.length).filter
        fun p => p.1 < p.2 ∧ ((rootN d p.1 = some rGone ∧ rootN d p.2 = some rKeep)
          ∨ (rootN d p.1 = some rKeep ∧ rootN d p.2 = some rGone))).card
      = (fiber d rGone ×ˢ fiber d rKeep).card := by
    apply Finset.card_bij'
      (fun p _ => if rootN d p.1 = some rGone then p else (p.2, p.1))
      (fun q _ => if q.1 < q.2 then q else (q.2, q.1))
    · intro p hp
      rw [Finset.mem_filter, Finset.mem_product, Finset.mem_range, Finset.mem_range] at hp
      obtain ⟨⟨hp1, hp2⟩, hlt, hcases⟩ := hp
      rcases hcases with ⟨hG, hK⟩ | ⟨hK, hG⟩
      · rw [if_pos hG, Finset.mem_product, mem_fiber, mem_fiber]
        exact ⟨⟨hp1, hG⟩, hp2, hK⟩
      · rw [if_neg (by rw [hK]; exact fun hc => hne (Option.some_injective _ hc).symm),
          Finset.mem_product, mem_fiber, mem_fiber]
        exact ⟨⟨hp2, hG⟩, hp1, hK⟩
    · intro q hq
      rw [Finset.mem_product, mem_fiber, mem_fiber] at hq
      obtain ⟨⟨hq1, hG⟩, hq2, hK⟩ := hq
      have hqne : q.1 ≠ q.2 := by
        intro hc
        rw [hc, hK] at hG
        exact hne (Option.some_injective _ hG).symm
      by_cases hlt : q.1 < q.2
      · rw [if_pos hlt, Finset.mem_filter, Finset.mem_product, Finset.mem_range,
          Finset.mem_range]
        exact ⟨⟨hq1, hq2⟩, hlt, Or.inl ⟨hG, hK⟩⟩
      · rw [if_neg hlt, Finset.mem_filter, Finset.mem_product, Finset.mem_range,
          Finset.mem_range]
        exact ⟨⟨hq2, hq1⟩, by omega, Or.inr ⟨hK, hG⟩⟩
    · intro p hp
      rw [Finset.mem_filter] at hp
      obtain ⟨_, hlt, hcases⟩ := hp
      rcases hcases with ⟨hG, hK⟩ | ⟨hK, hG⟩
      · rw [if_pos hG, if_pos hlt]
      · have hn1 : ¬rootN d p.1 = some rGone := by
          rw [hK]
          exact fun hc => hne (Option.some_injective _ hc).symm
        have hn2 : ¬p.2 < p.1 := by omega
        simp [hn1, hn2]
    · intro q hq
      rw [Finset.mem_product, mem_fiber, mem_fiber] at hq
      obtain ⟨⟨hq1, hG⟩, hq2, hK⟩ := hq
      have hqne : q.1 ≠ q.2 := by
        intro hc
        rw [hc, hK] at hG
        exact hne (Option.some_injective _ hG).symm
      by_cases hlt : q.1 < q.2
      · rw [if_pos hlt, if_pos hG]
      · have hn1 : ¬rootN d q.2 = some rGone := by
          rw [hK]
          exact fun hc => hne (Option.some_injective _ hc).symm
        rw [if_neg hlt]
        simp [hn1]
  rw [hcross, Finset.card_product]

theorem isRootSlot_eq_of_slots {d d' : List LinkSize}
    (hslots : ∀ x, slotL d' x = slotL d x ∨
      ∃ p q, slotL d x = .Parent p ∧ slotL d' x = .Parent q) :
    ∀ x, isRootSlot d' x = isRootSlot d x := by
  intro x
  rcases hslots x with h | ⟨p, q, hp, hq⟩
  · rw [isRootSlot, isRootSlot, h]
  · rw [isRootSlot, isRootSlot, hp, hq]

theorem foldl_link_spec :
    ∀ (queue : List Nat) (uf : SizedUnionFind) (r : Nat), Increasing uf.data →
      (∀ p ∈ queue, (∃ pp, slotL uf.data p = .Parent pp) ∧ rootN uf.data p = some r) →
      (∃ sr, slotL uf.data r = .Size sr) →
      ReadEffect uf (queue.foldl (fun w p => w.link p r) uf) := by
  intro queue
  induction queue with
  | nil => intro uf r hinc _ _; exact ReadEffect.refl_of uf hinc
  | cons p ps ih =>
    intro uf r hinc hq hr
    obtain ⟨⟨pp, hpslot⟩, hproot⟩ := hq p (by simp)
    obtain ⟨sr, hrslot⟩ := hr
    have hpr : p ≠ r := by
      intro hc
      subst hc
      rw [hpslot] at hrslot
      cases hrslot
    have hplen : p < uf.data.length := slotL_parent_lt _ p pp hpslot
    have hprlt : p < r := by
      have := rootN_le' uf.data hinc p r hproot
      omega
    have hrlen : r < uf.data.length := rootN_lt_len uf.data hinc p r hplen hproot
    obtain ⟨hinc1, hroots1⟩ := rootN_set_parent uf.data hinc p pp r hpslot
      (by rw [rootN_root uf.data r sr hrslot]; exact hproot.symm) hprlt hrlen
    have hfold : (p :: ps).foldl (fun w q => w.link q r) uf
        = ps.foldl (fun w q => w.link q r) (uf.link p r) := rfl
    have hl : uf.link p r = { uf with data := uf.data.set p (.Parent r) } := by
      rw [SizedUnionFind.link, if_pos hpr]
    have hre1 : ReadEffect uf { uf with data := uf.data.set p (.Parent r) } := by
      refine ⟨rfl, rfl, rfl, List.length_set uf.data p _, hinc1, hroots1, fun x => ?_⟩
      have hx := slotL_set uf.data p x (.Parent r)
      by_cases hpx : p = x
      · subst hpx
        rw [if_pos ⟨rfl, hplen⟩] at hx
        exact Or.inr ⟨pp, r, hpslot, hx⟩
      · rw [if_neg (fun hc => hpx hc.1)] at hx
        exact Or.inl hx
    rw [hfold, hl]
    refine ReadEffect.trans_of hre1 (ih _ r hinc1 ?_ ?_)
    · intro q hqmem
      obtain ⟨⟨qq, hqslot⟩, hqroot⟩ := hq q (by simp [hqmem])
      constructor
      · by_cases hpq : p = q
        · subst hpq
          exact ⟨r, by rw [slotL_set, if_pos ⟨rfl, hplen⟩]⟩
        · exact ⟨qq, by rw [slotL_set, if_neg (fun hc => hpq hc.1)]; exact hqslot⟩
      · rw [show ({ uf with data := uf.data.set p (.Parent r) } :
          SizedUnionFind).data = uf.data.set p (.Parent r) from rfl, hroots1 q]
        exact hqroot
    · refine ⟨sr, ?_⟩
      rw [show ({ uf with data := uf.data.set p (.Parent r) } :
        SizedUnionFind).data = uf.data.set p (.Parent r) from rfl]
      rw [slotL_set, if_neg (fun hc => hpr hc.1)]
      exact hrslot

theorem parentL_lt (data : List LinkSize) (hinc : Increasing data) (v : Nat)
    (hv : v < data.length) : parentL data v < data.length := by
  cases hslot : slotL data v with
  | Size s => rw [parentL, hslot]; exact hv
  | Parent p => rw [parentL, hslot]; exact (hinc v p hslot).2

theorem uniteAbsorb_spec (uf : SizedUnionFind) (hinc : Increasing uf.data)
    (hsz : SizesOK uf.data) (u' v' rOther joinSize : Nat) (queue : List Nat)
    (hslotu : slotL uf.data u' = .Size joinSize)
    (hrv : rootN uf.data v' = some rOther)
    (hne : rOther ≠ u') (hulen : u' < uf.data.length) (hvlen : v' < uf.data.length)
    (horient : uf.parent u' < uf.parent v')
    (hq : ∀ p ∈ queue, (∃ pp, slotL uf.data p = .Parent pp) ∧
      (rootN uf.data p = some u' ∨ rootN uf.data p = some rOther)) :
    ∃ uf2 S ufF,
      (uf.link u' (uf.parent v')).root_size v' = some (uf2, rOther, S) ∧
      ufF = { (queue.foldl (fun (w : SizedUnionFind) p => w.link p rOther)
          (uf2.setRoot rOther (S + joinSize))) with
        total_internal := (queue.foldl (fun (w : SizedUnionFind) p => w.link p rOther)
          (uf2.setRoot rOther (S + joinSize))).total_internal + S * joinSize } ∧
      S = (fiber uf.data rOther).card ∧ joinSize = (fiber uf.data u').card ∧
      ufF.size = uf.size ∧ ufF.total_edges = uf.total_edges ∧
      ufF.data.length = uf.data.length ∧
      ufF.total_internal = uf.total_internal +
        (fiber uf.data u').card * (fiber uf.data rOther).card ∧
      Increasing ufF.data ∧
      (∀ w, rootN ufF.data w =
        if rootN uf.data w = some u' then some rOther else rootN uf.data w) ∧
      (∀ x, isRootSlot ufF.data x = true ↔ (isRootSlot uf.data x = true ∧ x ≠ u')) ∧
      SizesOK ufF.data := by
  have hru' : rootN uf.data u' = some u' := rootN_root uf.data u' joinSize hslotu
  have hpv_root : rootN uf.data (uf.parent v') = some rOther := by
    rw [SizedUnionFind.parent, rootN_parentL uf.data hinc v']
    exact hrv
  have hpv_len : uf.parent v' < uf.data.length := parentL_lt uf.data hinc v' hvlen
  have hpu_self : uf.parent u' = u' := by
    rw [SizedUnionFind.parent, parentL, hslotu]
  have hult : u' < uf.parent v' := by rw [hpu_self] at horient; exact horient
  have hune_pv : u' ≠ uf.parent v' := by omega
  have hrOlen : rOther < uf.data.length :=
    rootN_lt_len uf.data hinc v' rOther hvlen hrv
  have hrOu : u' ≠ rOther := fun hc => hne hc.symm
  -- step 1: the link write
  have hlink : uf.link u' (uf.parent v')
      = { uf with data := uf.data.set u' (.Parent (uf.parent v')) } := by
    rw [SizedUnionFind.link, if_pos hune_pv]
  obtain ⟨hinc1, hform1⟩ := rootN_set_root_merge uf.data hinc u' joinSize
    (uf.parent v') rOther hslotu hpv_root hne hult hpv_len
  have hd1len : (uf.data.set u' (.Parent (uf.parent v'))).length = uf.data.length :=
    List.length_set uf.data u' _
  have hslot1 : ∀ j, slotL (uf.data.set u' (.Parent (uf.parent v'))) j =
      if u' = j then .Parent (uf.parent v') else slotL uf.data j := by
    intro j
    rw [slotL_set]
    rcases eq_or_ne u' j with rfl | h
    · rw [if_pos ⟨rfl, hulen⟩, if_pos rfl]
    · rw [if_neg (fun hc => h hc.1), if_neg h]
  -- step 2: root_size on the other side
  obtain ⟨uf2, R, S, hrs, hrootv1, hslotR1, hre12⟩ :=
    root_size_spec { uf with data := uf.data.set u' (.Parent (uf.parent v')) } hinc1 v'
  have hRro : R = rOther := by
    rw [hform1 v', hrv, if_neg (by
      exact fun hc => hne (Option.some_injective _ hc))] at hrootv1
    exact (Option.some_injective _ hrootv1).symm
  subst hRro
  have hslotRuf : slotL uf.data R = .Size S := by
    rw [hslot1 R, if_neg hrOu] at hslotR1
    exact hslotR1
  have hS : S = (fiber uf.data R).card := hsz R S hslotRuf hrOlen
  have hjoin : joinSize = (fiber uf.data u').card := hsz u' joinSize hslotu hulen
  -- step 3: the size write
  have hslotR2 : slotL uf2.data R = .Size S := by
    rcases hre12.slots R with h | ⟨p, q, hp, hq⟩
    · rw [h]; exact hslotR1
    · rw [hp] at hslotR1; cases hslotR1
  obtain ⟨hinc3, hroots3⟩ := rootN_set_size uf2.data hre12.inc R S (S + joinSize) hslotR2
  have hd3len : (uf2.data.set R (.Size (S + joinSize))).length = uf2.data.length :=
    List.length_set uf2.data R _
  have hlen2 : uf2.data.length = uf.data.length := by
    rw [hre12.len_eq, hd1len]
  have hslot3 : ∀ j, slotL (uf2.data.set R (.Size (S + joinSize))) j =
      if R = j then .Size (S + joinSize) else slotL uf2.data j := by
    intro j
    rw [slotL_set]
    rcases eq_or_ne R j with rfl | h
    · rw [if_pos ⟨rfl, by omega⟩, if_pos rfl]
    · rw [if_neg (fun hc => h hc.1), if_neg h]
  have hsetRoot : uf2.setRoot R (S + joinSize)
      = { uf2 with data := uf2.data.set R (.Size (S + joinSize)) } := rfl
  -- facts about roots in the intermediate states
  have hroots2 : ∀ w, rootN uf2.data w =
      if rootN uf.data w = some u' then some R else rootN uf.data w := by
    intro w
    rw [hre12.roots w, hform1 w]
  have hroots3' : ∀ w, rootN (uf2.data.set R (.Size (S + joinSize))) w =
      if rootN uf.data w = some u' then some R else rootN uf.data w := by
    intro w
    rw [hroots3 w, hroots2 w]
  -- step 4: relink the queue
  have hqueue3 : ∀ p ∈ queue,
      (∃ pp, slotL (uf2.data.set R (.Size (S + joinSize))) p = .Parent pp) ∧
      rootN (uf2.data.set R (.Size (S + joinSize))) p = some R := by
    intro p hp
    obtain ⟨⟨pp, hpslot⟩, hproot⟩ := hq p hp
    have hpu : p ≠ u' := by
      intro hc
      rw [hc, hslotu] at hpslot
      cases hpslot
    have hpslot1 : slotL (uf.data.set u' (.Parent (uf.parent v'))) p = .Parent pp := by
      rw [hslot1 p, if_neg (fun hc => hpu hc.symm)]
      exact hpslot
    have hpslot2 : ∃ qq, slotL uf2.data p = .Parent qq := by
      rcases hre12.slots p with h | ⟨pg, qg, hpg, hqg⟩
      · exact ⟨pp, by rw [h]; exact hpslot1⟩
      · exact ⟨qg, hqg⟩
    obtain ⟨qq, hpslot2⟩ := hpslot2
    have hpR : p ≠ R := by
      intro hc
      rw [hc, hslotR2] at hpslot2
      cases hpslot2
    constructor
    · exact ⟨qq, by rw [hslot3 p, if_neg (fun hc => hpR hc.symm)]; exact hpslot2⟩
    · rw [hroots3' p]
      rcases hproot with h | h
      · rw [h, if_pos rfl]
      · rw [h, if_neg (by
          exact fun hc => hne (Option.some_injective _ hc))]
  have hre34 := foldl_link_spec queue (uf2.setRoot R (S + joinSize)) R hinc3 hqueue3
    ⟨S + joinSize, by rw [SizedUnionFind.setRoot, hslot3 R, if_pos rfl]⟩
  set uf4 := queue.foldl (fun (w : SizedUnionFind) p => w.link p R)
    (uf2.setRoot R (S + joinSize)) with huf4
  have hrs' : (uf.link u' (uf.parent v')).root_size v' = some (uf2, R, S) := by
    rw [hlink]; exact hrs
  refine ⟨uf2, S, { uf4 with total_internal := uf4.total_internal + S * joinSize },
    hrs', rfl, hS, hjoin, ?_, ?_, ?_, ?_, ?_, ?_, ?_, ?_⟩
  · show uf4.size = uf.size
    rw [hre34.size_eq]
    exact hre12.size_eq
  · show uf4.total_edges = uf.total_edges
    rw [hre34.total_eq]
    exact hre12.total_eq
  · show uf4.data.length = uf.data.length
    rw [hre34.len_eq]
    show (uf2.data.set R (LinkSize.Size (S + joinSize))).length = uf.data.length
    rw [hd3len, hlen2]
  · show uf4.total_internal + S * joinSize = uf.total_internal +
      (fiber uf.data u').card * (fiber uf.data R).card
    rw [hre34.internal_eq]
    have : uf2.total_internal = uf.total_internal := hre12.internal_eq
    show uf2.total_internal + S * joinSize = _
    rw [this, hS, hjoin, Nat.mul_comm]
  · exact hre34.inc
  · intro w
    show rootN uf4.data w = _
    rw [hre34.roots w]
    exact hroots3' w
  · intro x
    show isRootSlot uf4.data x = true ↔ _
    rw [isRootSlot_eq_of_slots hre34.slots x]
    show isRootSlot (uf2.data.set R (LinkSize.Size (S + joinSize))) x = true ↔ _
    have h3eq : isRootSlot (uf2.data.set R (.Size (S + joinSize))) x
        = isRootSlot uf2.data x := by
      rcases eq_or_ne R x with rfl | h
      · rw [isRootSlot, hslot3 R, if_pos rfl, isRootSlot, hslotR2]
      · rw [isRootSlot, hslot3 x, if_neg h, isRootSlot]
    rw [h3eq, isRootSlot_eq_of_slots hre12.slots x]
    rcases eq_or_ne x u' with rfl | h
    · rw [isRootSlot, hslot1 x, if_pos rfl]
      simp [isRootSlot, hslotu]
    · rw [isRootSlot, hslot1 x, if_neg (fun hc => h hc.symm), ← isRootSlot]
      simp [h]
  · -- SizesOK of the final state
    intro x s hx hxlen
    have hxlen' : x < uf4.data.length := hxlen
    have hlen4 : uf4.data.length = uf.data.length := by
      rw [hre34.len_eq]
      show (uf2.data.set R (.Size (S + joinSize))).length = uf.data.length
      rw [hd3len, hlen2]
    have hform4 : ∀ w, rootN uf4.data w =
        if rootN uf.data w = some u' then some R else rootN uf.data w := by
      intro w
      rw [hre34.roots w]
      exact hroots3' w
    obtain ⟨hKmerge, hOther, hGempty⟩ :=
      fiber_merge uf.data uf4.data u' R hlen4 hrOu hform4
    have hx3 : slotL (uf2.data.set R (.Size (S + joinSize))) x = .Size s := by
      rcases hre34.slots x with h | ⟨p, q, hp, hq⟩
      · have h' : slotL (uf2.data.set R (LinkSize.Size (S + joinSize))) x
            = slotL uf4.data x := h.symm
        rw [h']; exact hx
      · rw [hq] at hx; cases hx
    rcases eq_or_ne R x with rfl | hRx
    · rw [hslot3 R, if_pos rfl] at hx3
      cases hx3
      rw [hKmerge, Finset.card_union_of_disjoint (fiber_disjoint uf.data u' R hrOu),
        hS, hjoin]
      omega
    · rw [hslot3 x, if_neg hRx] at hx3
      have hx1 : slotL (uf.data.set u' (.Parent (uf.parent v'))) x = .Size s := by
        rcases hre12.slots x with h | ⟨p, q, hp, hq⟩
        · rw [← h]; exact hx3
        · rw [hq] at hx3; cases hx3
      have hxu : x ≠ u' := by
        intro hc
        rw [hslot1 x, if_pos hc.symm] at hx1
        cases hx1
      have hxuf : slotL uf.data x = .Size s := by
        rw [hslot1 x, if_neg (fun hc => hxu hc.symm)] at hx1
        exact hx1
      rw [hOther x (Ne.symm hRx) hxu]
      exact hsz x s hxuf (by omega)

theorem uniteAux_diff (uf : SizedUnionFind) (hinc : Increasing uf.data)
    (hsz : SizesOK uf.data) :
    ∀ fuel u v queue ru rv, rootN uf.data u = some ru → rootN uf.data v = some rv →
      ru ≠ rv → u < uf.data.length → v < uf.data.length →
      (∀ p ∈ queue, (∃ pp, slotL uf.data p = .Parent pp) ∧
        (rootN uf.data p = some ru ∨ rootN uf.data p = some rv)) →
      (ru - u) + (rv - v) < fuel →
      ∃ ufF rGone rKeep, uniteAux uf u v queue fuel = some (ufF, true) ∧
        ((rGone = ru ∧ rKeep = rv) ∨ (rGone = rv ∧ rKeep = ru)) ∧
        ufF.size = uf.size ∧ ufF.total_edges = uf.total_edges ∧
        ufF.data.length = uf.data.length ∧
        ufF.total_internal = uf.total_internal +
          (fiber uf.data rGone).card * (fiber uf.data rKeep).card ∧
        Increasing ufF.data ∧
        (∀ w, rootN ufF.data w =
          if rootN uf.data w = some rGone then some rKeep else rootN uf.data w) ∧
        (∀ x, isRootSlot ufF.data x = true ↔ (isRootSlot uf.data x = true ∧ x ≠ rGone)) ∧
        SizesOK ufF.data := by
  intro fuel
  induction fuel with
  | zero => intro u v queue ru rv _ _ _ _ _ _ hm; omega
  | succ f ih =>
    intro u v queue ru rv hru hrv hne hul hvl hq hm
    have hpu : rootN uf.data (uf.parent u) = some ru := by
      rw [SizedUnionFind.parent, rootN_parentL uf.data hinc u]; exact hru
    have hpv : rootN uf.data (uf.parent v) = some rv := by
      rw [SizedUnionFind.parent, rootN_parentL uf.data hinc v]; exact hrv
    have hguard : uf.parent u ≠ uf.parent v := by
      intro hc
      rw [hc, hpv] at hpu
      exact hne (Option.some_injective _ hpu).symm
    rw [uniteAux, if_neg hguard]
    by_cases hgt : uf.parent u > uf.parent v
    · simp only [if_pos hgt]
      cases hslotu : slotL uf.data v with
      | Parent temp =>
        have hvt : v < temp := (hinc v temp hslotu).1
        have htlen : temp < uf.data.length := (hinc v temp hslotu).2
        have hrt : rootN uf.data temp = some rv := by
          rw [← rootN_step uf.data hinc v temp hslotu]; exact hrv
        have htr : temp ≤ rv := rootN_le' uf.data hinc temp rv hrt
        have hq' : ∀ p ∈ queue ++ [v], (∃ pp, slotL uf.data p = .Parent pp) ∧
            (rootN uf.data p = some rv ∨ rootN uf.data p = some ru) := by
          intro p hp
          rw [List.mem_append, List.mem_singleton] at hp
          rcases hp with hp | rfl
          · obtain ⟨h1, h2⟩ := hq p hp
            exact ⟨h1, h2.symm⟩
          · exact ⟨⟨temp, hslotu⟩, Or.inl hrv⟩
        have hm' : (rv - temp) + (ru - u) < f := by omega
        obtain ⟨ufF, rGone, rKeep, hrun, hdisj, hrest⟩ :=
          ih temp u (queue ++ [v]) rv ru hrt hru (Ne.symm hne) htlen hul hq' hm'
        exact ⟨ufF, rGone, rKeep, hrun, by tauto, hrest⟩
      | Size joinSize =>
        have hveq : v = rv := by
          have h0 := rootN_root uf.data v joinSize hslotu
          rw [h0] at hrv
          exact Option.some_injective _ hrv
        have hOne : ru ≠ v := by rw [hveq]; exact hne
        have hq' : ∀ p ∈ queue, (∃ pp, slotL uf.data p = .Parent pp) ∧
            (rootN uf.data p = some v ∨ rootN uf.data p = some ru) := by
          intro p hp
          obtain ⟨h1, h2⟩ := hq p hp
          refine ⟨h1, ?_⟩
          rcases h2 with h | h
          · exact Or.inr h
          · rw [← hveq] at h
            exact Or.inl h
        obtain ⟨uf2, S, ufF, hrs', hufF, hS, hjoin, hsize, htot, hlen, hint,
            hincF, hroots, hiff, hszF⟩ :=
          uniteAbsorb_spec uf hinc hsz v u ru joinSize queue hslotu hru hOne hvl hul
            hgt hq'
        refine ⟨ufF, v, ru, ?_, Or.inr ⟨hveq, rfl⟩, hsize, htot, hlen, hint,
          hincF, hroots, hiff, hszF⟩
        simp only [hrs']
        rw [hufF]
    · simp only [if_neg hgt]
      have hlt : uf.parent u < uf.parent v := by omega
      cases hslotu : slotL uf.data u with
      | Parent temp =>
        have hut : u < temp := (hinc u temp hslotu).1
        have htlen : temp < uf.data.length := (hinc u temp hslotu).2
        have hrt : rootN uf.data temp = some ru := by
          rw [← rootN_step uf.data hinc u temp hslotu]; exact hru
        have htr : temp ≤ ru := rootN_le' uf.data hinc temp ru hrt
        have hq' : ∀ p ∈ queue ++ [u], (∃ pp, slotL uf.data p = .Parent pp) ∧
            (rootN uf.data p = some ru ∨ rootN uf.data p = some rv) := by
          intro p hp
          rw [List.mem_append, List.mem_singleton] at hp
          rcases hp with hp | rfl
          · exact hq p hp
          · exact ⟨⟨temp, hslotu⟩, Or.inl hru⟩
        have hm' : (ru - temp) + (rv - v) < f := by omega
        obtain ⟨ufF, rGone, rKeep, hrun, hdisj, hrest⟩ :=
          ih temp v (queue ++ [u]) ru rv hrt hrv hne htlen hvl hq' hm'
        exact ⟨ufF, rGone, rKeep, hrun, hdisj, hrest⟩
      | Size joinSize =>
        have hueq : u = ru := by
          have h0 := rootN_root uf.data u joinSize hslotu
          rw [h0] at hru
          exact Option.some_injective _ hru
        have hOne : rv ≠ u := by rw [hueq]; exact Ne.symm hne
        have hq' : ∀ p ∈ queue, (∃ pp, slotL uf.data p = .Parent pp) ∧
            (rootN uf.data p = some u ∨ rootN uf.data p = some rv) := by
          intro p hp
          obtain ⟨h1, h2⟩ := hq p hp
          refine ⟨h1, ?_⟩
          rcases h2 with h | h
          · rw [← hueq] at h
            exact Or.inl h
          · exact Or.inr h
        obtain ⟨uf2, S, ufF, hrs', hufF, hS, hjoin, hsize, htot, hlen, hint,
            hincF, hroots, hiff, hszF⟩ :=
          uniteAbsorb_spec uf hinc hsz u v rv joinSize queue hslotu hrv hOne hul hvl
            hlt hq'
        refine ⟨ufF, u, rv, ?_, Or.inl ⟨hueq, rfl⟩, hsize, htot, hlen, hint,
          hincF, hroots, hiff, hszF⟩
        simp only [hrs']
        rw [hufF]

theorem unite_cases (uf : SizedUnionFind) (hinc : Increasing uf.data)
    (hsz : SizesOK uf.data) (u v : Nat)
    (hu : u < uf.data.length) (hv : v < uf.data.length) :
    (rootN uf.data u = rootN uf.data v ∧ uf.unite u v = some (uf, false)) ∨
    (rootN uf.data u ≠ rootN uf.data v ∧
      ∃ ufF rGone rKeep, uf.unite u v = some (ufF, true) ∧
        rGone ≠ rKeep ∧ isRootSlot uf.data rGone = true ∧ rGone < uf.data.length ∧
        ufF.size = uf.size ∧ ufF.total_edges = uf.total_edges ∧
        ufF.data.length = uf.data.length ∧
        ufF.total_internal = uf.total_internal +
          (fiber uf.data rGone).card * (fiber uf.data rKeep).card ∧
        Increasing ufF.data ∧
        (∀ w, rootN ufF.data w =
          if rootN uf.data w = some rGone then some rKeep else rootN uf.data w) ∧
        (∀ x, isRootSlot ufF.data x = true ↔ (isRootSlot uf.data x = true ∧ x ≠ rGone)) ∧
        SizesOK ufF.data) := by
  obtain ⟨ru, hru, _, hrootu⟩ := rootN_total uf.data hinc u
  obtain ⟨rv, hrv, _, hrootv⟩ := rootN_total uf.data hinc v
  have hrul : ru < uf.data.length := rootN_lt_len uf.data hinc u ru hu hru
  have hrvl : rv < uf.data.length := rootN_lt_len uf.data hinc v rv hv hrv
  by_cases hne : ru = rv
  · subst hne
    left
    refine ⟨by rw [hru, hrv], ?_⟩
    exact uniteAux_same uf hinc _ u v [] ru hru hrv (by omega)
  · right
    refine ⟨by rw [hru, hrv]; exact fun hc => hne (Option.some_injective _ hc), ?_⟩
    obtain ⟨ufF, rGone, rKeep, hrun, hdisj, hsize, htot, hlen, hint, hincF,
        hroots, hiff, hszF⟩ :=
      uniteAux_diff uf hinc hsz (2 * uf.data.length + 2) u v [] ru rv hru hrv hne
        hu hv (by intro p hp; cases hp) (by omega)
    refine ⟨ufF, rGone, rKeep, hrun, ?_, ?_, ?_, hsize, htot, hlen, hint, hincF,
      hroots, hiff, hszF⟩
    · rcases hdisj with ⟨rfl, rfl⟩ | ⟨rfl, rfl⟩
      · exact hne
      · exact Ne.symm hne
    · rcases hdisj with ⟨rfl, rfl⟩ | ⟨rfl, rfl⟩
      · exact hrootu
      · exact hrootv
    · rcases hdisj with ⟨rfl, rfl⟩ | ⟨rfl, rfl⟩
      · exact hrul
      · exact hrvl

theorem unite_WF (uf : SizedUnionFind) (hwf : WF uf) (u v : Nat)
    (hu : u < uf.data.length) (hv : v < uf.data.length) :
    ∃ uf' b, uf.unite u v = some (uf', b) ∧ WF uf' ∧ uf'.size = uf.size ∧
      (b = false → uf' = uf) ∧
      (b = true → numRoots uf'.data + 1 = numRoots uf.data ∧
        rootN uf.data u ≠ rootN uf.data v) ∧
      (rootN uf.data u ≠ rootN uf.data v → b = true) := by
  rcases unite_cases uf hwf.inc hwf.sizes u v hu hv with
    ⟨hsame, hrun⟩ | ⟨hdiff, ufF, rGone, rKeep, hrun, hGK, hGroot, hGlen, hsize,
      htot, hlen, hint, hincF, hroots, hiff, hszF⟩
  · refine ⟨uf, false, hrun, hwf, rfl, fun _ => rfl, ?_, ?_⟩
    · intro hc
      exact absurd hc (by simp)
    · intro hc
      exact absurd hsame hc
  · refine ⟨ufF, true, hrun, ?_, hsize, ?_, ?_, fun _ => rfl⟩
    · refine ⟨?_, ?_, hincF, hszF, ?_, ?_⟩
      · rw [hlen, hsize]
        exact hwf.len
      · rw [hsize]
        exact hwf.pos
      · rw [htot, hsize]
        exact hwf.total
      · rw [hint, hwf.internal,
          samePairs_merge uf.data ufF.data rGone rKeep hlen hGK hroots]
    · intro hc
      exact absurd hc (by simp)
    · intro _
      exact ⟨numRoots_merge uf.data ufF.data rGone hlen hGroot hGlen hiff, hdiff⟩

theorem ObsEq_of_ReadEffect {uf uf' : SizedUnionFind} (h : ReadEffect uf uf') :
    ObsEq uf uf' := by
  refine ⟨h.roots, fun r s => ?_, h.size_eq, h.total_eq, h.internal_eq, h.len_eq⟩
  constructor
  · intro hs
    rcases h.slots r with h' | ⟨p, q, hp, hq⟩
    · rw [← h']; exact hs
    · rw [hq] at hs; cases hs
  · intro hs
    rcases h.slots r with h' | ⟨p, q, hp, hq⟩
    · rw [h']; exact hs
    · rw [hp] at hs; cases hs

theorem new_spec (n : Nat) (uf : SizedUnionFind) (h : SizedUnionFind.new n = some uf) :
    WF uf ∧ uf.size = n ∧ uf.total_internal = 0 ∧
      uf.total_edges = n * (n - 1) / 2 ∧ numRoots uf.data = n ∧
      uf.data.length = n ∧ (∀ w, rootN uf.data w = some w) := by
  rw [SizedUnionFind.new] at h
  by_cases h1 : 2 ^ 31 ≤ n
  · rw [if_pos h1] at h; cases h
  rw [if_neg h1] at h
  by_cases h2 : n = 0
  · rw [if_pos h2] at h; cases h
  rw [if_neg h2] at h
  cases h
  have hlen : (List.replicate n (LinkSize.Size 1)).length = n := List.length_replicate n _
  have hslot : ∀ w, slotL (List.replicate n (LinkSize.Size 1)) w
      = LinkSize.Size (if w < n then 1 else 0) := by
    intro w
    rw [slotL, List.getElem?_replicate]
    by_cases hw : w < n
    · rw [if_pos hw, if_pos hw]
      rfl
    · rw [if_neg hw, if_neg hw]
      rfl
  have hroot : ∀ w, rootN (List.replicate n (LinkSize.Size 1)) w = some w := by
    intro w
    exact rootN_root _ w _ (hslot w)
  have hinc : Increasing (List.replicate n (LinkSize.Size 1)) := by
    intro w p hw
    rw [hslot w] at hw
    cases hw
  refine ⟨⟨hlen, (by omega : 0 < n), hinc, ?_, rfl, ?_⟩, rfl, rfl, rfl, ?_, hlen, hroot⟩
  · intro r s hs hr
    have hr' : r < (List.replicate n (LinkSize.Size 1)).length := hr
    rw [hlen] at hr'
    rw [hslot r, if_pos hr'] at hs
    cases hs
    have : fiber (List.replicate n (LinkSize.Size 1)) r = {r} := by
      ext w
      rw [mem_fiber, hroot w, Finset.mem_singleton, hlen]
      constructor
      · rintro ⟨h1, h2⟩
        exact Option.some_injective _ h2
      · rintro rfl
        exact ⟨by omega, rfl⟩
    rw [this, Finset.card_singleton]
  · unfold samePairs
    rw [show ((Finset.range (List.replicate n (LinkSize.Size 1)).length ×ˢ
        Finset.range (List.replicate n (LinkSize.Size 1)).length).filter
        fun p => p.1 < p.2 ∧ rootN (List.replicate n (LinkSize.Size 1)) p.1
          = rootN (List.replicate n (LinkSize.Size 1)) p.2) = ∅ from ?_]
    · rfl
    ext p
    rw [Finset.mem_filter]
    simp only [Finset.not_mem_empty, iff_false]
    rintro ⟨_, hlt, hsame⟩
    rw [hroot p.1, hroot p.2] at hsame
    have := Option.some_injective _ hsame
    omega
  · unfold numRoots
    rw [hlen]
    rw [show ((Finset.range n).filter fun r =>
        isRootSlot (List.replicate n (LinkSize.Size 1)) r = true) = Finset.range n from ?_]
    · exact Finset.card_range n
    apply Finset.filter_true_of_mem
    intro x _
    rw [isRootSlot, hslot x]

theorem collectRemainders_spec :
    ∀ (ws : List Nat) (set : SizedUnionFind) (r : Nat), Increasing set.data →
    ∃ set', collectRemainders set r ws = some (set',
        ws.filter (fun w => decide (rootN set.data w ≠ some r))) ∧
      ReadEffect set set' := by
  intro ws
  induction ws with
  | nil => intro set r hinc; exact ⟨set, rfl, ReadEffect.refl_of set hinc⟩
  | cons w ws ih =>
    intro set r hinc
    obtain ⟨set1, rw1, hrun1, hroot1, hre1⟩ := root_spec set hinc w
    obtain ⟨set2, hrun2, hre2⟩ := ih set1 r hre1.inc
    refine ⟨set2, ?_, ReadEffect.trans_of hre1 hre2⟩
    have hfun : (fun w => decide (rootN set1.data w ≠ some r))
        = (fun w => decide (rootN set.data w ≠ some r)) :=
      funext fun x => by rw [hre1.roots x]
    simp only [collectRemainders, hrun1]
    rw [hrun2, hfun]
    by_cases hcond : rw1 = r
    · simp [List.filter_cons, hroot1, hcond]
    · simp [List.filter_cons, hroot1, hcond]

theorem filterRemainders_spec :
    ∀ (ws : List Nat) (set : SizedUnionFind) (r : Nat), Increasing set.data →
    ∃ set', filterRemainders set r ws = some (set',
        ws.filter (fun w => decide (rootN set.data w ≠ some r))) ∧
      ReadEffect set set' := by
  intro ws
  induction ws with
  | nil => intro set r hinc; exact ⟨set, rfl, ReadEffect.refl_of set hinc⟩
  | cons w ws ih =>
    intro set r hinc
    obtain ⟨set1, rw1, hrun1, hroot1, hre1⟩ := root_spec set hinc w
    obtain ⟨set2, hrun2, hre2⟩ := ih set1 r hre1.inc
    refine ⟨set2, ?_, ReadEffect.trans_of hre1 hre2⟩
    have hfun : (fun w => decide (rootN set1.data w ≠ some r))
        = (fun w => decide (rootN set.data w ≠ some r)) :=
      funext fun x => by rw [hre1.roots x]
    simp only [filterRemainders, hrun1]
    rw [hrun2, hfun]
    by_cases hcond : rw1 = r
    · simp [List.filter_cons, hroot1, hcond]
    · simp [List.filter_cons, hroot1, hcond]

theorem rootN_self_of_isRoot (data : List LinkSize) (r : Nat)
    (h : isRootSlot data r = true) : rootN data r = some r := by
  rw [isRootSlot] at h
  cases hs : slotL data r with
  | Size s => exact rootN_root data r s hs
  | Parent p => rw [hs] at h; cases h

theorem update_fat_component_spec (set : SizedUnionFind) (hwf : WF set)
    (c : FatComponent) (hcr : c.root < set.data.length) :
    ∃ set' c' r, update_fat_component set c = some (set', c') ∧ ReadEffect set set' ∧
      rootN set.data c.root = some r ∧ c'.root = r ∧ r < set.data.length ∧
      c'.size = (fiber set.data r).card ∧
      ((set.size - (fiber set.data r).card) * 2 < c.remainders.length →
        c'.remainders = c.remainders.filter
          (fun w => decide (rootN set.data w ≠ some r))) ∧
      (¬ (set.size - (fiber set.data r).card) * 2 < c.remainders.length →
        c'.remainders = c.remainders) := by
  obtain ⟨set1, r, hrun1, hroot1, hre1⟩ := root_spec set hwf.inc c.root
  have hrlen : r < set.data.length := rootN_lt_len set.data hwf.inc c.root r hcr hroot1
  have hrootr : rootN set.data r = some r :=
    rootN_self_of_isRoot set.data r (rootN_isRoot set.data hwf.inc c.root r hroot1)
  obtain ⟨set2, s, r2, hrun2, hroot2, hslot2, hre2⟩ := sizeP_spec set1 hre1.inc r
  have hr2 : r2 = r := by
    rw [hre1.roots r, hrootr] at hroot2
    exact (Option.some_injective _ hroot2).symm
  subst hr2
  have hslotset : slotL set.data r2 = .Size s := by
    rcases hre1.slots r2 with h | ⟨p, q, hp, hq⟩
    · rw [← h]; exact hslot2
    · rw [hq] at hslot2; cases hslot2
  have hs : s = (fiber set.data r2).card := hwf.sizes r2 s hslotset hrlen
  have hsz2 : set2.size = set.size := by rw [hre2.size_eq, hre1.size_eq]
  by_cases hcond : (set2.total_size - s) * 2 < c.remainders.length
  · obtain ⟨set3, hrun3, hre3⟩ :=
      filterRemainders_spec c.remainders set2 r2 hre2.inc
    set rem3 := c.remainders.filter (fun w => decide (rootN set2.data w ≠ some r2))
      with hrem3
    refine ⟨set3, { root := r2, size := s, remainders := rem3 }, r2, ?_,
      ReadEffect.trans_of hre1 (ReadEffect.trans_of hre2 hre3),
      hroot1, rfl, hrlen, ?_, ?_, ?_⟩
    · simp only [update_fat_component, hrun1, hrun2, if_pos hcond, hrun3]
    · show s = (fiber set.data r2).card
      exact hs
    · intro _
      show c.remainders.filter (fun w => decide (rootN set2.data w ≠ some r2)) = _
      have hfun : (fun w => decide (rootN set2.data w ≠ some r2))
          = (fun w => decide (rootN set.data w ≠ some r2)) :=
        funext fun x => by rw [hre2.roots x, hre1.roots x]
      rw [hfun]
    · intro hc
      exfalso
      apply hc
      rw [← hs]
      show (set.size - s) * 2 < c.remainders.length
      rw [← hsz2]
      exact hcond
  · refine ⟨set2, { root := r2, size := s, remainders := c.remainders }, r2, ?_,
      ReadEffect.trans_of hre1 hre2, hroot1, rfl, hrlen, ?_, ?_, ?_⟩
    · simp only [update_fat_component, hrun1, hrun2, if_neg hcond]
    · show s = (fiber set.data r2).card
      exact hs
    · intro hc
      exfalso
      apply hcond
      show (set2.size - s) * 2 < c.remainders.length
      rw [hsz2, hs]
      exact hc
    · intro _
      rfl

theorem findFatAux_weak :
    ∀ (vs : List Nat) (set : SizedUnionFind), WF set →
      ∃ set' fo, findFatAux set vs = some (set', fo) ∧ ReadEffect set set' ∧
        FatRangeOK set.size fo := by
  intro vs
  induction vs with
  | nil =>
    intro set hwf
    exact ⟨set, none, rfl, ReadEffect.refl_of set hwf.inc, trivial⟩
  | cons v vs ih =>
    intro set hwf
    obtain ⟨set1, sv, rv, hrun1, hroot1, hslot1, hre1⟩ := sizeP_spec set hwf.inc v
    by_cases hcond : sv * 2 ≥ set1.total_size
    · obtain ⟨set2, r, hrun2, hroot2, hre2⟩ := root_spec set1 hre1.inc v
      obtain ⟨set3, sv2, r3, hrun3, hroot3, hslot3, hre3⟩ := sizeP_spec set2 hre2.inc v
      obtain ⟨set4, hrun4, hre4⟩ :=
        collectRemainders_spec (List.range set3.total_size) set3 r hre3.inc
      have hre14 := ReadEffect.trans_of hre1 (ReadEffect.trans_of hre2
        (ReadEffect.trans_of hre3 hre4))
      set rem4 := (List.range set3.total_size).filter
        (fun w => decide (rootN set3.data w ≠ some r)) with hrem4
      refine ⟨set4, some { root := r, size := sv2, remainders := rem4 },
        ?_, hre14, ?_, ?_⟩
      · simp only [findFatAux, hrun1, if_pos hcond, hrun2, hrun3, hrun4]
      · show r < set.size
        have hr1 : rootN set1.data v = some r := hroot2
        rw [hre1.roots v] at hr1
        by_cases hvlen : v < set.data.length
        · have := rootN_lt_len set.data hwf.inc v r hvlen hr1
          rw [← hwf.len]
          exact this
        · rw [rootN_out set.data v (by omega)] at hr1
          cases hr1
          -- v out of range: then sizeP returned sv = 0 and the guard forces size = 0,
          -- contradicting WF.pos unless ... derive contradiction from hcond
          exfalso
          rw [rootN_out set.data v (by omega)] at hroot1
          have hveq : rv = v := by
            have := Option.some_injective _ hroot1
            omega
          rw [hveq] at hslot1
          rw [slotL_out set.data v (by omega)] at hslot1
          cases hslot1
          have hts : set1.total_size = set.size := hre1.size_eq
          have := hwf.pos
          omega
      · intro w hw
        rw [List.mem_filter, List.mem_range] at hw
        show w < set.size
        have : set3.total_size = set.size := by
          show set3.size = set.size
          rw [hre3.size_eq, hre2.size_eq, hre1.size_eq]
        omega
    · obtain ⟨set', fo, hrun', hre', hfo⟩ := ih set1 (WF_of_ReadEffect hwf hre1)
      refine ⟨set', fo, ?_, ReadEffect.trans_of hre1 hre', ?_⟩
      · simp only [findFatAux, hrun1, if_neg hcond, hrun']
      · have : set1.size = set.size := hre1.size_eq
        rw [← this]
        exact hfo

theorem findFatAux_hit :
    ∀ (vs : List Nat) (set : SizedUnionFind), WF set →
      (∀ v ∈ vs, v < set.data.length) →
      (∃ v0 r0, v0 ∈ vs ∧ rootN set.data v0 = some r0 ∧
        (fiber set.data r0).card * 2 ≥ set.size) →
      ∃ set' fc, findFatAux set vs = some (set', some fc) ∧ ReadEffect set set' ∧
        isRootSlot set.data fc.root = true ∧ fc.root < set.data.length ∧
        (fiber set.data fc.root).card * 2 ≥ set.size ∧
        fc.size = (fiber set.data fc.root).card ∧
        fc.remainders = (List.range set.size).filter
          (fun w => decide (rootN set.data w ≠ some fc.root)) := by
  intro vs
  induction vs with
  | nil =>
    intro set hwf _ hhit
    obtain ⟨v0, r0, hv0, _, _⟩ := hhit
    cases hv0
  | cons v vs ih =>
    intro set hwf hrange hhit
    obtain ⟨set1, sv, rv, hrun1, hroot1, hslot1, hre1⟩ := sizeP_spec set hwf.inc v
    have hvlen : v < set.data.length := hrange v (by simp)
    have hrvlen : rv < set.data.length := rootN_lt_len set.data hwf.inc v rv hvlen hroot1
    have hsv : sv = (fiber set.data rv).card := hwf.sizes rv sv hslot1 hrvlen
    have hts1 : set1.total_size = set.size := hre1.size_eq
    by_cases hcond : sv * 2 ≥ set1.total_size
    · obtain ⟨set2, r, hrun2, hroot2, hre2⟩ := root_spec set1 hre1.inc v
      obtain ⟨set3, sv2, r3, hrun3, hroot3, hslot3, hre3⟩ := sizeP_spec set2 hre2.inc v
      obtain ⟨set4, hrun4, hre4⟩ :=
        collectRemainders_spec (List.range set3.total_size) set3 r hre3.inc
      have hre14 := ReadEffect.trans_of hre1 (ReadEffect.trans_of hre2
        (ReadEffect.trans_of hre3 hre4))
      have hr : r = rv := by
        have h1 : rootN set1.data v = some r := hroot2
        rw [hre1.roots v, hroot1] at h1
        exact (Option.some_injective _ h1).symm
      have hr3 : r3 = rv := by
        have h1 : rootN set2.data v = some r3 := hroot3
        rw [hre2.roots v, hre1.roots v, hroot1] at h1
        exact (Option.some_injective _ h1).symm
      have hsv2 : sv2 = sv := by
        have h2 : slotL set.data r3 = .Size sv2 := by
          rcases (ReadEffect.trans_of hre1 hre2).slots r3 with h | ⟨p, q, hp, hq⟩
          · rw [← h]; exact hslot3
          · rw [hq] at hslot3; cases hslot3
        rw [hr3, hslot1] at h2
        cases h2
        rfl
      have hts3 : set3.total_size = set.size := by
        show set3.size = set.size
        rw [hre3.size_eq, hre2.size_eq, hre1.size_eq]
      set rem4 := (List.range set3.total_size).filter
        (fun w => decide (rootN set3.data w ≠ some r)) with hrem4
      refine ⟨set4, { root := r, size := sv2, remainders := rem4 },
        ?_, hre14, ?_, ?_, ?_, ?_, ?_⟩
      · simp only [findFatAux, hrun1, if_pos hcond, hrun2, hrun3, hrun4]
      · show isRootSlot set.data r = true
        rw [hr, isRootSlot, hslot1]
      · show r < set.data.length
        rw [hr]
        exact hrvlen
      · show (fiber set.data r).card * 2 ≥ set.size
        rw [hr, ← hsv]
        omega
      · show sv2 = (fiber set.data r).card
        rw [hsv2, hr, ← hsv]
      · show rem4 = (List.range set.size).filter
          (fun w => decide (rootN set.data w ≠ some r))
        rw [hrem4, hts3]
        congr 1
        funext x
        rw [hre3.roots x, hre2.roots x, hre1.roots x]
    · obtain ⟨v0, r0, hv0, hr0, hcard0⟩ := hhit
      have hv0vs : v0 ∈ vs := by
        rcases List.mem_cons.1 hv0 with rfl | h
        · exfalso
          rw [hroot1] at hr0
          cases hr0
          rw [← hsv] at hcard0
          omega
        · exact h
      have hwf1 := WF_of_ReadEffect hwf hre1
      have hhit1 : ∃ va ra, va ∈ vs ∧ rootN set1.data va = some ra ∧
          (fiber set1.data ra).card * 2 ≥ set1.size := by
        refine ⟨v0, r0, hv0vs, ?_, ?_⟩
        · rw [hre1.roots v0]
          exact hr0
        · rw [fiber_congr hre1.len_eq hre1.roots r0, hre1.size_eq]
          exact hcard0
      obtain ⟨set', fc, hrun', hre', hroot', hlen', hcard', hsize', hrem'⟩ :=
        ih set1 hwf1 (by
          intro x hx
          have h1 := hrange x (by simp [hx])
          have h2 : set1.data.length = set.data.length := hre1.len_eq
          omega) hhit1
      refine ⟨set', fc, ?_, ReadEffect.trans_of hre1 hre', ?_, ?_, ?_, ?_, ?_⟩
      · simp only [findFatAux, hrun1, if_neg hcond, hrun']
      · rw [← isRootSlot_eq_of_slots hre1.slots fc.root]
        exact hroot'
      · rw [← hre1.len_eq]
        exact hlen'
      · rw [← fiber_congr hre1.len_eq hre1.roots fc.root, ← hre1.size_eq]
        exact hcard'
      · rw [← fiber_congr hre1.len_eq hre1.roots fc.root]
        exact hsize'
      · rw [hrem']
        rw [show set1.size = set.size from hre1.size_eq]
        have hfun : (fun w => decide (rootN set1.data w ≠ some fc.root))
            = (fun w => decide (rootN set.data w ≠ some fc.root)) :=
          funext fun x => by rw [hre1.roots x]
        rw [hfun]

theorem allPairs_mul_two (n : Nat) : allPairs n * 2 = n * (n - 1) := by
  have h := allPairs_eq n
  have h2 := Finset.sum_range_id_mul_two n
  have h3 : allPairs n = ∑ v ∈ Finset.range n, v := by
    rw [h]
    omega
  omega

theorem ordPairs_eq_two_samePairs (d : List LinkSize) :
    ((Finset.range d.length ×ˢ Finset.range d.length).filter
      (fun p => p.1 ≠ p.2 ∧ rootN d p.1 = rootN d p.2)).card = 2 * samePairs d := by
  have hsplit : ((Finset.range d.length ×ˢ Finset.range d.length).filter
        (fun p => p.1 ≠ p.2 ∧ rootN d p.1 = rootN d p.2))
      = ((Finset.range d.length ×ˢ Finset.range d.length).filter
        (fun p => (p.1 < p.2 ∧ rootN d p.1 = rootN d p.2)
          ∨ (p.2 < p.1 ∧ rootN d p.1 = rootN d p.2))) := by
    apply Finset.filter_congr
    intro p _
    constructor
    · rintro ⟨hne, hsame⟩
      rcases Nat.lt_or_ge p.1 p.2 with h | h
      · exact Or.inl ⟨h, hsame⟩
      · exact Or.inr ⟨by omega, hsame⟩
    · rintro (⟨h, hsame⟩ | ⟨h, hsame⟩)
      · exact ⟨by omega, hsame⟩
      · exact ⟨by omega, hsame⟩
  rw [hsplit, Finset.filter_or, Finset.card_union_of_disjoint ?disj]
  case disj =>
    rw [Finset.disjoint_left]
    intro p hp hp'
    rw [Finset.mem_filter] at hp hp'
    omega
  have hswap : ((Finset.range d.length ×ˢ Finset.range d.length).filter
        (fun p => p.2 < p.1 ∧ rootN d p.1 = rootN d p.2)).card
      = ((Finset.range d.length ×ˢ Finset.range d.length).filter
        (fun p => p.1 < p.2 ∧ rootN d p.1 = rootN d p.2)).card := by
    refine Finset.card_bij' (fun p _ => (p.2, p.1)) (fun p _ => (p.2, p.1))
      ?_ ?_ ?_ ?_
    · intro a ha
      rw [Finset.mem_filter, Finset.mem_product] at ha ⊢
      exact ⟨⟨ha.1.2, ha.1.1⟩, ha.2.1, ha.2.2.symm⟩
    · intro a ha
      rw [Finset.mem_filter, Finset.mem_product] at ha ⊢
      exact ⟨⟨ha.1.2, ha.1.1⟩, ha.2.1, ha.2.2.symm⟩
    · intro a _
      rfl
    · intro a _
      rfl
  rw [hswap]
  unfold samePairs
  omega

theorem ordPairs_eq_sum (d : List LinkSize) (hinc : Increasing d) :
    ((Finset.range d.length ×ˢ Finset.range d.length).filter
      (fun p => p.1 ≠ p.2 ∧ rootN d p.1 = rootN d p.2)).card
    = ∑ u ∈ Finset.range d.length, ((fiber d ((rootN d u).getD 0)).card - 1) := by
  rw [Finset.card_eq_sum_card_fiberwise
    (f := Prod.fst) (t := Finset.range d.length) ?maps]
  case maps =>
    intro p hp
    rw [Finset.mem_filter, Finset.mem_product] at hp
    exact hp.1.1
  apply Finset.sum_congr rfl
  intro u hu
  rw [Finset.mem_range] at hu
  obtain ⟨ru, hru, _, _⟩ := rootN_total d hinc u
  have hgetD : (rootN d u).getD 0 = ru := by rw [hru]; rfl
  rw [hgetD]
  have himg : ((Finset.range d.length ×ˢ Finset.range d.length).filter
        (fun p => p.1 ≠ p.2 ∧ rootN d p.1 = rootN d p.2)).filter (fun p => p.1 = u)
      = Finset.image (fun v => (u, v)) ((fiber d ru).erase u) := by
    ext q
    rw [Finset.mem_filter, Finset.mem_filter, Finset.mem_product, Finset.mem_image]
    constructor
    · rintro ⟨⟨⟨h1, h2⟩, hne, hsame⟩, hq1⟩
      refine ⟨q.2, ?_, ?_⟩
      · rw [Finset.mem_erase, mem_fiber]
        refine ⟨by omega, Finset.mem_range.1 h2, ?_⟩
        rw [← hsame, hq1, hru]
      · rw [← hq1]
    · rintro ⟨v, hv, rfl⟩
      rw [Finset.mem_erase, mem_fiber] at hv
      refine ⟨⟨⟨?_, ?_⟩, ?_, ?_⟩, rfl⟩
      · exact Finset.mem_range.2 hu
      · exact Finset.mem_range.2 hv.2.1
      · show u ≠ v
        exact fun hc => hv.1 hc.symm
      · show rootN d u = rootN d v
        rw [hru, hv.2.2]
  rw [himg, Finset.card_image_of_injective _ (fun a b hab => by
      injection hab with h1 h2), Finset.card_erase_of_mem]
  rw [mem_fiber]
  exact ⟨hu, hru⟩

theorem fat_component_exists (uf : SizedUnionFind) (hwf : WF uf)
    (hsat : uf.free_edges * 2 < uf.total_edges) :
    ∃ u r, u < uf.data.length ∧ rootN uf.data u = some r ∧
      (fiber uf.data r).card * 2 ≥ uf.size := by
  by_contra hcon
  push_neg at hcon
  have hlen : uf.data.length = uf.size := hwf.len
  have htotal2 : uf.total_edges * 2 = uf.data.length * (uf.data.length - 1) := by
    rw [hwf.total, hlen, ← allPairs_eq]
    exact allPairs_mul_two uf.size
  have hint : uf.total_internal = samePairs uf.data := hwf.internal
  have hord := ordPairs_eq_two_samePairs uf.data
  have hsum := ordPairs_eq_sum uf.data hwf.inc
  have hle : uf.total_internal ≤ uf.total_edges := by
    have h := samePairs_le_allPairs uf.data
    rw [hlen] at h
    rw [hint, hwf.total, ← allPairs_eq]
    exact h
  have hfree : uf.free_edges = uf.total_edges - uf.total_internal := rfl
  have h1 : uf.total_edges < 2 * uf.total_internal := by
    rw [SizedUnionFind.free_edges] at hsat
    omega
  have hterm : ∀ u ∈ Finset.range uf.data.length,
      2 * ((fiber uf.data ((rootN uf.data u).getD 0)).card - 1)
        ≤ uf.data.length - 3 := by
    intro u hu
    rw [Finset.mem_range] at hu
    obtain ⟨ru, hru, _, _⟩ := rootN_total uf.data hwf.inc u
    have hgetD : (rootN uf.data u).getD 0 = ru := by rw [hru]; rfl
    rw [hgetD]
    have hsmall := hcon u ru hu hru
    have humem : u ∈ fiber uf.data ru := mem_fiber.2 ⟨hu, hru⟩
    have hpos : 0 < (fiber uf.data ru).card := Finset.card_pos.2 ⟨u, humem⟩
    rw [hlen]
    omega
  have hsum2 : ∑ u ∈ Finset.range uf.data.length,
      2 * ((fiber uf.data ((rootN uf.data u).getD 0)).card - 1)
      ≤ uf.data.length * (uf.data.length - 3) := by
    calc ∑ u ∈ Finset.range uf.data.length,
        2 * ((fiber uf.data ((rootN uf.data u).getD 0)).card - 1)
        ≤ ∑ _u ∈ Finset.range uf.data.length, (uf.data.length - 3) :=
          Finset.sum_le_sum hterm
      _ = uf.data.length * (uf.data.length - 3) := by
          rw [Finset.sum_const, Finset.card_range, smul_eq_mul]
  have hmulsum : 2 * ∑ u ∈ Finset.range uf.data.length,
      ((fiber uf.data ((rootN uf.data u).getD 0)).card - 1)
      = ∑ u ∈ Finset.range uf.data.length,
        2 * ((fiber uf.data ((rootN uf.data u).getD 0)).card - 1) :=
    Finset.mul_sum _ _ _
  have hmono : uf.data.length * (uf.data.length - 3)
      ≤ uf.data.length * (uf.data.length - 1) :=
    Nat.mul_le_mul_left _ (by omega)
  omega

theorem find_fat_spec (uf : SizedUnionFind) (hwf : WF uf)
    (hsat : uf.free_edges * 2 < uf.total_edges) :
    ∃ uf' fc, find_fat_component uf = some (uf', some fc) ∧ ReadEffect uf uf' ∧
      isRootSlot uf.data fc.root = true ∧ fc.root < uf.data.length ∧
      (fiber uf.data fc.root).card * 2 ≥ uf.size ∧
      fc.size = (fiber uf.data fc.root).card ∧
      fc.remainders = (List.range uf.size).filter
        (fun w => decide (rootN uf.data w ≠ some fc.root)) := by
  obtain ⟨u, r, hu, hr, hcard⟩ := fat_component_exists uf hwf hsat
  have hlen : uf.data.length = uf.size := hwf.len
  obtain ⟨uf', fc, hrun, hre, h1, h2, h3, h4, h5⟩ :=
    findFatAux_hit (List.range uf.total_size) uf hwf
      (by
        intro v hv
        rw [List.mem_range] at hv
        have hv' : v < uf.size := hv
        omega)
      ⟨u, r, by
        rw [List.mem_range]
        show u < uf.size
        omega, hr, hcard⟩
  exact ⟨uf', fc, hrun, hre, h1, h2, h3, h4, h5⟩

theorem sample_sparse_edge_spec :
    ∀ fuel (rng : Rng) (set : SizedUnionFind), Increasing set.data → 0 < set.size →
      ∀ u v set' rng', sample_sparse_edge rng set fuel = some (u, v, set', rng') →
      ReadEffect set set' ∧ u < set.size ∧ v < set.size := by
  intro fuel
  induction fuel with
  | zero => intro rng set _ _ u v set' rng' h; cases h
  | succ f ih =>
    intro rng set hinc hpos u v set' rng' h
    obtain ⟨set1, b, hrun, hiff, hre⟩ :=
      same_set_spec set hinc ((rng.next).1 % set.total_size)
        (((rng.next).2.next).1 % set.total_size)
    simp only [sample_sparse_edge, hrun] at h
    by_cases hb : b = true
    · rw [if_pos hb] at h
      obtain ⟨hre', h1, h2⟩ := ih _ set1 hre.inc (by rw [hre.size_eq]; exact hpos)
        u v set' rng' h
      rw [hre.size_eq] at h1 h2
      exact ⟨ReadEffect.trans_of hre hre', h1, h2⟩
    · rw [if_neg hb] at h
      cases h
      refine ⟨hre, ?_, ?_⟩
      · exact Nat.mod_lt _ hpos
      · exact Nat.mod_lt _ hpos

theorem sample_component_spec :
    ∀ fuel (rng : Rng) (set : SizedUnionFind) (c : FatComponent),
      Increasing set.data → 0 < set.size →
      ∀ u set' rng', sample_component rng set c fuel = some (u, set', rng') →
      ReadEffect set set' ∧ u < set.size ∧ rootN set.data u = some c.root := by
  intro fuel
  induction fuel with
  | zero => intro rng set c _ _ u set' rng' h; cases h
  | succ f ih =>
    intro rng set c hinc hpos u set' rng' h
    obtain ⟨set1, r, hrun, hroot, hre⟩ := root_spec set hinc ((rng.next).1 % set.total_size)
    simp only [sample_component, hrun] at h
    by_cases hr : r = c.root
    · rw [if_pos hr] at h
      cases h
      refine ⟨hre, Nat.mod_lt _ hpos, ?_⟩
      rw [← hr]
      exact hroot
    · rw [if_neg hr] at h
      obtain ⟨hre', h1, h2⟩ := ih _ set1 c hre.inc (by rw [hre.size_eq]; exact hpos)
        u set' rng' h
      rw [hre.size_eq] at h1
      rw [hre.roots u] at h2
      exact ⟨ReadEffect.trans_of hre hre', h1, h2⟩

theorem sample_remainder_spec :
    ∀ fuel (rng : Rng) (set : SizedUnionFind) (c : FatComponent),
      Increasing set.data →
      ∀ u set' rng', sample_remainder rng set c fuel = some (u, set', rng') →
      ReadEffect set set' ∧ u ∈ c.remainders ∧ rootN set.data u ≠ some c.root := by
  intro fuel
  induction fuel with
  | zero => intro rng set c _ u set' rng' h; cases h
  | succ f ih =>
    intro rng set c hinc u set' rng' h
    by_cases hlen : c.remainders.length = 0
    · rw [sample_remainder, if_pos hlen] at h
      cases h
    obtain ⟨set1, r, hrun, hroot, hre⟩ := root_spec set hinc
      (c.remainders.getD ((rng.next).1 % c.remainders.length) 0)
    rw [sample_remainder, if_neg hlen] at h
    simp only [hrun] at h
    have hmem : c.remainders.getD ((rng.next).1 % c.remainders.length) 0
        ∈ c.remainders := by
      have hidx : (rng.next).1 % c.remainders.length < c.remainders.length :=
        Nat.mod_lt _ (by omega)
      rw [List.getD_eq_getElem?_getD, List.getElem?_eq_getElem hidx]
      exact List.getElem_mem hidx
    by_cases hr : r ≠ c.root
    · rw [if_pos hr] at h
      cases h
      refine ⟨hre, hmem, ?_⟩
      rw [hroot]
      exact fun hc => hr (Option.some_injective _ hc)
    · rw [if_neg hr] at h
      obtain ⟨hre', h1, h2⟩ := ih _ set1 c hre.inc u set' rng' h
      rw [hre.roots u] at h2
      exact ⟨ReadEffect.trans_of hre hre', h1, h2⟩

theorem sampleRemainderPair_spec :
    ∀ fuel (rng : Rng) (set : SizedUnionFind) (c : FatComponent),
      Increasing set.data →
      ∀ u v set' rng', sampleRemainderPair rng set c fuel = some (u, v, set', rng') →
      ReadEffect set set' ∧ u ∈ c.remainders ∧ v ∈ c.remainders := by
  intro fuel
  induction fuel with
  | zero => intro rng set c _ u v set' rng' h; cases h
  | succ f ih =>
    intro rng set c hinc u v set' rng' h
    cases hrun1 : sample_remainder rng set c (f + 1) with
    | none => rw [sampleRemainderPair, hrun1] at h; cases h
    | some x1 =>
      obtain ⟨u1, set1, rng1⟩ := x1
      rw [sampleRemainderPair] at h
      simp only [hrun1] at h
      obtain ⟨hre1, hmem1, _⟩ := sample_remainder_spec (f + 1) rng set c hinc
        u1 set1 rng1 hrun1
      cases hrun2 : sample_remainder rng1 set1 c (f + 1) with
      | none => simp only [hrun2] at h; cases h
      | some x2 =>
        obtain ⟨v1, set2, rng2⟩ := x2
        simp only [hrun2] at h
        obtain ⟨hre2, hmem2, _⟩ := sample_remainder_spec (f + 1) rng1 set1 c hre1.inc
          v1 set2 rng2 hrun2
        obtain ⟨set3, b, hrun3, hiff3, hre3⟩ := same_set_spec set2 hre2.inc u1 v1
        simp only [hrun3] at h
        by_cases hb : b = true
        · rw [if_pos hb] at h
          obtain ⟨hre', h1, h2⟩ := ih rng2 set3 c hre3.inc u v set' rng' h
          exact ⟨ReadEffect.trans_of hre1 (ReadEffect.trans_of hre2
            (ReadEffect.trans_of hre3 hre')), h1, h2⟩
        · rw [if_neg hb] at h
          cases h
          exact ⟨ReadEffect.trans_of hre1 (ReadEffect.trans_of hre2 hre3),
            hmem1, hmem2⟩

theorem sample_component_edge_weak (fuel : Nat) (rng : Rng) (set : SizedUnionFind)
    (c : FatComponent) (hinc : Increasing set.data) (hpos : 0 < set.size)
    (u v : Nat) (set' : SizedUnionFind) (rng' : Rng)
    (h : sample_component_edge rng set c fuel = some (u, v, set', rng')) :
    ReadEffect set set' ∧ (u < set.size ∨ u ∈ c.remainders) ∧
      (v < set.size ∨ v ∈ c.remainders) := by
  rw [sample_component_edge] at h
  by_cases hbranch : (rng.next).1 % 2 = 1
  · rw [if_pos hbranch] at h
    cases hrun1 : sample_component (rng.next).2 set c fuel with
    | none => simp only [hrun1] at h; cases h
    | some x1 =>
      obtain ⟨u1, set1, rng2⟩ := x1
      simp only [hrun1] at h
      obtain ⟨hre1, hu1, _⟩ := sample_component_spec fuel (rng.next).2 set c hinc hpos
        u1 set1 rng2 hrun1
      cases hrun2 : sample_remainder rng2 set1 c fuel with
      | none => simp only [hrun2] at h; cases h
      | some x2 =>
        obtain ⟨v1, set2, rng3⟩ := x2
        simp only [hrun2] at h
        obtain ⟨hre2, hmem2, _⟩ := sample_remainder_spec fuel rng2 set1 c hre1.inc
          v1 set2 rng3 hrun2
        cases h
        exact ⟨ReadEffect.trans_of hre1 hre2, Or.inl hu1, Or.inr hmem2⟩
  · rw [if_neg hbranch] at h
    obtain ⟨hre, h1, h2⟩ := sampleRemainderPair_spec fuel (rng.next).2 set c hinc
      u v set' rng' h
    exact ⟨hre, Or.inr h1, Or.inr h2⟩

theorem nextLoop_spec (wm : WeightModel R) :
    ∀ fuel (st : FatComponentSampler R), WF st.set →
      FatRangeOK st.set.size st.fat_component →
      ∀ res st', nextLoop wm st fuel = some (res, st') →
      ∃ e, res = some e ∧ e.w = wm.sub wm.one st.inv_weight ∧
        WF st'.set ∧ st'.set.size = st.set.size ∧
        numRoots st'.set.data + 1 = numRoots st.set.data ∧
        st'.total_count = st.total_count - 1 ∧
        st'.inv_weight = st.inv_weight ∧
        st'.fat_component = st.fat_component := by
  intro fuel
  induction fuel with
  | zero => intro st _ _ res st' h; cases h
  | succ f ih =>
    intro st hwf hfat res st' h
    have hlen : st.set.data.length = st.set.size := hwf.len
    have hdrawn : ∃ u v set1 rng1,
        (match st.fat_component with
          | some c => sample_component_edge st.rng st.set c (f + 1)
          | none => sample_sparse_edge st.rng st.set (f + 1)) =
          some (u, v, set1, rng1) ∧
        ReadEffect st.set set1 ∧ u < st.set.size ∧ v < st.set.size := by
      cases hfc : st.fat_component with
      | none =>
        cases hrun : sample_sparse_edge st.rng st.set (f + 1) with
        | none =>
          exfalso
          simp only [nextLoop, hfc, hrun] at h
          cases h
        | some x =>
          obtain ⟨u, v, set1, rng1⟩ := x
          obtain ⟨hre, hu, hv⟩ := sample_sparse_edge_spec (f + 1) st.rng st.set
            hwf.inc hwf.pos u v set1 rng1 hrun
          exact ⟨u, v, set1, rng1, rfl, hre, hu, hv⟩
      | some c =>
        cases hrun : sample_component_edge st.rng st.set c (f + 1) with
        | none =>
          exfalso
          simp only [nextLoop, hfc, hrun] at h
          cases h
        | some x =>
          obtain ⟨u, v, set1, rng1⟩ := x
          obtain ⟨hre, hu, hv⟩ := sample_component_edge_weak (f + 1) st.rng st.set
            c hwf.inc hwf.pos u v set1 rng1 hrun
          have hfat' := hfat
          rw [hfc] at hfat'
          refine ⟨u, v, set1, rng1, hrun, hre, ?_, ?_⟩
          · rcases hu with hu | hu
            · exact hu
            · exact hfat'.2 u hu
          · rcases hv with hv | hv
            · exact hv
            · exact hfat'.2 v hv
    obtain ⟨u, v, set1, rng1, hrun, hre, hu, hv⟩ := hdrawn
    have hwf1 : WF set1 := WF_of_ReadEffect hwf hre
    have hu1 : u < set1.data.length := by rw [hwf1.len, hre.size_eq]; exact hu
    have hv1 : v < set1.data.length := by rw [hwf1.len, hre.size_eq]; exact hv
    obtain ⟨set2, b, hunite, hwf2, hsz2, hfalse, htrue, _⟩ :=
      unite_WF set1 hwf1 u v hu1 hv1
    rw [nextLoop] at h
    rw [hrun] at h
    simp only [hunite] at h
    by_cases hb : b = true
    · rw [if_pos hb] at h
      cases h
      refine ⟨{ u := u, v := v, w := wm.sub wm.one st.inv_weight }, rfl, rfl,
        hwf2, ?_, ?_, rfl, rfl, rfl⟩
      · exact hsz2.trans hre.size_eq
      · have h1 := (htrue hb).1
        have h2 : numRoots set1.data = numRoots st.set.data :=
          numRoots_congr hre.len_eq hre.slots
        show numRoots set2.data + 1 = numRoots st.set.data
        omega
    · rw [if_neg hb] at h
      have hset21 : set2 = set1 := hfalse (by revert hb; cases b <;> simp)
      have hwfR : WF (({ st with set := set2, rng := rng1 } :
          FatComponentSampler R)).set := hwf2
      have hfatR : FatRangeOK (({ st with set := set2, rng := rng1 } :
          FatComponentSampler R)).set.size
          (({ st with set := set2, rng := rng1 } : FatComponentSampler R)).fat_component := by
        show FatRangeOK set2.size st.fat_component
        rw [hsz2, hre.size_eq]
        exact hfat
      obtain ⟨e, hres, hw, hwf', hsz', hnr', htc', hinv', hfc'⟩ :=
        ih { st with set := set2, rng := rng1 } hwfR hfatR res st' h
      refine ⟨e, hres, hw, hwf', ?_, ?_, htc', hinv', hfc'⟩
      · rw [hsz']
        show set2.size = st.set.size
        rw [hsz2, hre.size_eq]
      · rw [hnr']
        show numRoots set2.data = numRoots st.set.data
        rw [hset21]
        exact numRoots_congr hre.len_eq hre.slots

theorem next_stop (wm : WeightModel R) (st : FatComponentSampler R) (fuel : Nat)
    (h : st.set.free_edges = 0 ∨ st.total_count = 0) :
    next wm st fuel = some (none, st) := by
  rw [next, if_pos h]

theorem next_spec (wm : WeightModel R) (st : FatComponentSampler R) (fuel : Nat)
    (hinv : SamplerInv st)
    (hgo : ¬ (st.set.free_edges = 0 ∨ st.total_count = 0))
    (res : Option (Edge R)) (st' : FatComponentSampler R)
    (h : next wm st fuel = some (res, st')) :
    ∃ e, res = some e ∧
      e.w = wm.sub wm.one
        (advanceInv wm st.inv_weight st.set.free_edges (st.rng.next).1) ∧
      SamplerInv st' ∧ st'.set.size = st.set.size ∧
      st'.total_count + 1 = st.total_count ∧
      st'.inv_weight =
        advanceInv wm st.inv_weight st.set.free_edges (st.rng.next).1 := by
  obtain ⟨hwf, hnr, hfat⟩ := hinv
  have htc : 0 < st.total_count := by
    rcases Nat.eq_zero_or_pos st.total_count with h0 | h0
    · exact absurd (Or.inr h0) hgo
    · exact h0
  have hmain : ∃ set2 fat2,
      next wm st fuel =
        nextLoop wm
          { inv_weight :=
              if st.set.free_edges > 2 ^ 16 then
                wm.sub st.inv_weight
                  (wm.div (wm.sample (st.rng.next).1) st.set.free_edges)
              else
                wm.mul st.inv_weight
                  (wm.exp (wm.div (wm.neg (wm.sample (st.rng.next).1))
                    st.set.free_edges)),
            fat_component := fat2, total_count := st.total_count,
            set := set2, rng := (st.rng.next).2 } fuel ∧
      ReadEffect st.set set2 ∧ FatRangeOK st.set.size fat2 := by
    cases hfc : st.fat_component with
    | none =>
      by_cases hsat : st.set.free_edges * 2 < st.set.total_edges
      · obtain ⟨setF, fc, hrunF, hreF, _, hfcr, _, _, hremF⟩ := find_fat_spec st.set hwf hsat
        refine ⟨setF, some fc, ?_, hreF, ?_⟩
        · rw [next, if_neg hgo]
          simp [hfc, hrunF, hsat]
        · refine ⟨?_, ?_⟩
          · rw [← hwf.len]; exact hfcr
          · intro w hw
            rw [hremF, List.mem_filter, List.mem_range] at hw
            exact hw.1
      · refine ⟨st.set, none, ?_, ReadEffect.refl_of st.set hwf.inc, trivial⟩
        rw [next, if_neg hgo]
        simp only [hfc]
        rw [if_neg (fun hc => hsat hc.1)]
    | some c =>
      have hcfat : c.root < st.set.size ∧ ∀ w ∈ c.remainders, w < st.set.size := by
        have := hfat
        rw [hfc] at this
        exact this
      obtain ⟨setU, c', r, hrunU, hreU, _, hcr', hrlt, _, hfilt, hnofilt⟩ :=
        update_fat_component_spec st.set hwf c (by rw [hwf.len]; exact hcfat.1)
      refine ⟨setU, some c', ?_, hreU, ?_, ?_⟩
      · rw [next, if_neg hgo]
        simp only [hfc, hrunU]
        rw [if_neg (fun hc => Option.noConfusion hc.2)]
      · rw [← hwf.len]; exact hcr' ▸ hrlt
      · intro w hw
        by_cases hcond : (st.set.size - (fiber st.set.data r).card) * 2 < c.remainders.length
        · rw [hfilt hcond, List.mem_filter] at hw
          exact hcfat.2 w hw.1
        · rw [hnofilt hcond] at hw
          exact hcfat.2 w hw
  obtain ⟨set2, fat2, heq, hre2, hfat2⟩ := hmain
  rw [heq] at h
  have hwf2 : WF set2 := WF_of_ReadEffect hwf hre2
  have hfat2' : FatRangeOK set2.size fat2 := by rw [hre2.size_eq]; exact hfat2
  obtain ⟨e, hres, hw, hwf', hsz', hnr', htc', hinv', _⟩ :=
    nextLoop_spec wm fuel _ hwf2 hfat2' res st' h
  refine ⟨e, hres, ?_, ⟨hwf', ?_, ?_⟩, ?_, ?_, ?_⟩
  · rw [hw]
    rfl
  · have hnr2 : numRoots set2.data = numRoots st.set.data :=
      numRoots_congr hre2.len_eq hre2.slots
    have hb : numRoots st'.set.data + 1 = numRoots set2.data := hnr'
    rw [htc']
    show numRoots st'.set.data = st.total_count - 1 + 1
    omega
  · show FatRangeOK st'.set.size st'.fat_component
    obtain ⟨_, _, _, _, _, _, _, _, hfc'⟩ :=
      nextLoop_spec wm fuel _ hwf2 hfat2' res st' h
    rw [hfc', hsz']
    show FatRangeOK set2.size fat2
    exact hfat2'
  · rw [hsz']
    exact hre2.size_eq
  · rw [htc']
    show st.total_count - 1 + 1 = st.total_count
    omega
  · exact hinv'

theorem runSampler_spec (wm : WeightModel R) :
    ∀ steps (st : FatComponentSampler R) fuel, SamplerInv st →
      ∀ es stF, runSampler wm steps st fuel = some (es, stF) →
      SamplerInv stF ∧ stF.set.size = st.set.size ∧
      es.length + stF.total_count = st.total_count ∧
      (stF.set.free_edges = 0 ∨ stF.total_count = 0) := by
  intro steps
  induction steps with
  | zero => intro st fuel _ es stF h; cases h
  | succ n ih =>
    intro st fuel hinv es stF h
    by_cases hstop : st.set.free_edges = 0 ∨ st.total_count = 0
    · have hn := next_stop wm st fuel hstop
      rw [runSampler] at h
      rw [hn] at h
      cases h
      exact ⟨hinv, rfl, by simp, hstop⟩
    · cases hnext : next wm st fuel with
      | none =>
        rw [runSampler] at h
        rw [hnext] at h
        cases h
      | some x =>
        obtain ⟨r, st1⟩ := x
        obtain ⟨e, hres, _, hinv1, hsz1, htc1, _⟩ :=
          next_spec wm st fuel hinv hstop r st1 hnext
        subst hres
        simp only [runSampler, hnext] at h
        cases hrec : runSampler wm n st1 fuel with
        | none => simp only [hrec] at h; cases h
        | some y =>
          obtain ⟨es1, stF1⟩ := y
          simp only [hrec] at h
          cases h
          obtain ⟨hinvF, hszF, hlenF, hstopF⟩ := ih st1 fuel hinv1 _ _ hrec
          refine ⟨hinvF, hszF.trans hsz1, ?_, hstopF⟩
          simp only [List.length_cons]
          omega

theorem numRoots_eq_one_of_all_same (d : List LinkSize) (hinc : Increasing d)
    (hpos : 0 < d.length)
    (hsame : ∀ u v, u < d.length → v < d.length → rootN d u = rootN d v) :
    numRoots d = 1 := by
  refine le_antisymm ?_ (one_le_numRoots d hinc hpos)
  apply Finset.card_le_one.2
  intro a ha b hb
  rw [Finset.mem_filter, Finset.mem_range] at ha hb
  have hra : rootN d a = some a := rootN_self_of_isRoot d a ha.2
  have hrb : rootN d b = some b := rootN_self_of_isRoot d b hb.2
  have := hsame a b ha.1 hb.1
  rw [hra, hrb] at this
  exact Option.some_injective _ this

theorem stop_state (st : FatComponentSampler R) (hinv : SamplerInv st)
    (hstop : st.set.free_edges = 0 ∨ st.total_count = 0) :
    st.total_count = 0 ∧ numRoots st.set.data = 1 := by
  obtain ⟨hwf, hnr, _⟩ := hinv
  rcases hstop with hfree | htc
  · have hall : samePairs st.set.data = allPairs st.set.data.length := by
      have h1 : st.set.total_edges = allPairs st.set.data.length := by
        rw [hwf.total, allPairs_eq, hwf.len]
      have h2 := samePairs_le_allPairs st.set.data
      have h3 : st.set.free_edges = st.set.total_edges - st.set.total_internal := rfl
      have h4 := hwf.internal
      omega
    have hone : numRoots st.set.data = 1 := by
      apply numRoots_eq_one_of_all_same st.set.data hwf.inc
      · rw [hwf.len]; exact hwf.pos
      · intro u v hu hv
        exact samePairs_all st.set.data hwf.inc hall u v hu hv
    exact ⟨by omega, hone⟩
  · exact ⟨htc, by omega⟩

theorem applyUnites_WF : ∀ (ops : List (Nat × Nat)) (uf0 : SizedUnionFind),
    WF uf0 → (∀ op ∈ ops, op.1 < uf0.size ∧ op.2 < uf0.size) →
    ∀ uf, applyUnites uf0 ops = some uf → WF uf ∧ uf.size = uf0.size := by
  intro ops
  induction ops with
  | nil =>
    intro uf0 hwf _ uf happ
    cases happ
    exact ⟨hwf, rfl⟩
  | cons op ops ih =>
    intro uf0 hwf hops uf happ
    obtain ⟨uf1, b, hu, hwf1, hsz1, _⟩ := unite_WF uf0 hwf op.1 op.2
      (by rw [hwf.len]; exact (hops op (List.mem_cons_self op ops)).1)
      (by rw [hwf.len]; exact (hops op (List.mem_cons_self op ops)).2)
    rw [applyUnites] at happ
    rw [hu] at happ
    obtain ⟨hwfU, hszU⟩ := ih uf1 hwf1
      (by
        intro op' hop'
        rw [hsz1]
        exact hops op' (List.mem_cons_of_mem op hop'))
      uf happ
    exact ⟨hwfU, hszU.trans hsz1⟩

/-- C1: for every `N ≥ 2` and every random stream, a completed run of the
sampler (driving `next` to exhaustion, as `complete::mst` does) emits
exactly `N - 1` edges — each one the result of exactly one successful
`unite` call —, reaches the state in which `next` returns the `None`
edge, and leaves `same_set u v` true for every pair of points
`u, v < N`. -/
theorem C1_full_run (wm : WeightModel R) (N : Nat) (rng : Rng)
    (steps fuel : Nat) (st : FatComponentSampler R)
    (es : List (Edge R)) (stF : FatComponentSampler R)
    (hN : 2 ≤ N)
    (hnew : FatComponentSampler.new wm rng N = some st)
    (hrun : runSampler wm steps st fuel = some (es, stF)) :
    es.length = N - 1 ∧ stF.total_count = 0 ∧
    next wm stF fuel = some (none, stF) ∧
    ∀ u v, u < N → v < N →
      ∃ set', stF.set.same_set u v = some (set', true) := by
  cases hnewU : SizedUnionFind.new N with
  | none =>
    rw [FatComponentSampler.new] at hnew
    rw [hnewU] at hnew
    cases hnew
  | some set0 =>
    obtain ⟨hwf0, hsz0, _, _, hnr0, _, _⟩ := new_spec N set0 hnewU
    rw [FatComponentSampler.new] at hnew
    rw [hnewU] at hnew
    cases hnew
    have hinv : SamplerInv (FatComponentSampler.mk wm.one none (N - 1) set0 rng) := by
      refine ⟨hwf0, ?_, trivial⟩
      show numRoots set0.data = N - 1 + 1
      rw [hnr0]
      omega
    obtain ⟨hinvF, hszF, hlenF, hstopF⟩ :=
      runSampler_spec wm steps _ fuel hinv es stF hrun
    obtain ⟨htcF, hnrF⟩ := stop_state stF hinvF hstopF
    have hlen' : es.length + stF.total_count = N - 1 := hlenF
    have hwfF : WF stF.set := hinvF.1
    have hstSz : stF.set.size = N := hszF.trans hsz0
    refine ⟨by omega, htcF, next_stop wm stF fuel hstopF, ?_⟩
    intro u v hu hv
    have hu' : u < stF.set.data.length := by rw [hwfF.len, hstSz]; exact hu
    have hv' : v < stF.set.data.length := by rw [hwfF.len, hstSz]; exact hv
    have hroots := numRoots_one_all_same stF.set.data hwfF.inc hnrF u v hu' hv'
    obtain ⟨set', b, hss, hiff, _⟩ := same_set_spec stF.set hwfF.inc u v
    have hb : b = true := hiff.mpr hroots
    exact ⟨set', by rw [← hb]; exact hss⟩

/-- C2: after a `SizedUnionFind` is created by `new n` and mutated by any
sequence of in-range `unite` calls, `linked_edges` equals the number of
unordered vertex pairs currently in the same component (the sum, over the
merges performed, of `size_a * size_b` at merge time), and
`free_edges + linked_edges = total_edges = n * (n - 1) / 2`. -/
theorem C2_counters (n : Nat) (uf0 uf : SizedUnionFind) (ops : List (Nat × Nat))
    (hnew : SizedUnionFind.new n = some uf0)
    (hops : ∀ op ∈ ops, op.1 < n ∧ op.2 < n)
    (happ : applyUnites uf0 ops = some uf) :
    uf.linked_edges = samePairs uf.data ∧
    uf.free_edges + uf.linked_edges = uf.total_edges ∧
    uf.total_edges = n * (n - 1) / 2 := by
  obtain ⟨hwf0, hsz0, _, _, _, _, _⟩ := new_spec n uf0 hnew
  have hops' : ∀ op ∈ ops, op.1 < uf0.size ∧ op.2 < uf0.size := by
    intro op hop
    rw [hsz0]
    exact hops op hop
  obtain ⟨hwf, hsz⟩ := applyUnites_WF ops uf0 hwf0 hops' uf happ
  refine ⟨hwf.internal, ?_, ?_⟩
  · have h1 : samePairs uf.data ≤ allPairs uf.data.length :=
      samePairs_le_allPairs uf.data
    have h2 : uf.total_edges = allPairs uf.data.length := by
      rw [hwf.total, allPairs_eq, hwf.len]
    have h3 : uf.free_edges = uf.total_edges - uf.total_internal := rfl
    have h4 := hwf.internal
    have h5 : uf.linked_edges = uf.total_internal := rfl
    omega
  · rw [hwf.total, hsz, hsz0]

/-- C3: whenever the detection trigger `free_edges * 2 < total_edges`
holds on a well-formed `SizedUnionFind` with at least two points,
`find_fat_component` returns `Some` in its single scan; the returned
record carries a root whose component holds at least half of all points,
its exact size, and a remainder list containing exactly the points whose
root differs from the fat root. -/
theorem C3_detection (uf : SizedUnionFind) (hwf : WF uf) (hN : 2 ≤ uf.size)
    (hsat : uf.free_edges * 2 < uf.total_edges) :
    ∃ uf' fc, find_fat_component uf = some (uf', some fc) ∧
      isRootSlot uf.data fc.root = true ∧
      (fiber uf.data fc.root).card * 2 ≥ uf.size ∧
      fc.size = (fiber uf.data fc.root).card ∧
      (∀ w, w < uf.size → (w ∈ fc.remainders ↔ rootN uf.data w ≠ some fc.root)) ∧
      (∀ w, w ∈ fc.remainders → w < uf.size) := by
  obtain ⟨uf', fc, hrun, _, hroot, _, hhalf, hsize, hrem⟩ := find_fat_spec uf hwf hsat
  refine ⟨uf', fc, hrun, hroot, hhalf, hsize, ?_, ?_⟩
  · intro w hw
    rw [hrem, List.mem_filter, List.mem_range]
    constructor
    · intro h
      simpa using h.2
    · intro h
      exact ⟨hw, by simpa using h⟩
  · intro w hw
    rw [hrem, List.mem_filter, List.mem_range] at hw
    exact hw.1

/-- C4: `update_fat_component` re-resolves the tracked root and size from
the union-find, compacts the remainder list only when
`(N - fat_size) * 2 < remainders.length`, in which case it removes
exactly the entries whose root equals the fat root — so a still-outside
entry is never removed. -/
theorem C4_update_fat (set : SizedUnionFind) (hwf : WF set) (c : FatComponent)
    (hcr : c.root < set.data.length) :
    ∃ set' c' r, update_fat_component set c = some (set', c') ∧
      rootN set.data c.root = some r ∧ c'.root = r ∧
      c'.size = (fiber set.data r).card ∧
      ((set.size - c'.size) * 2 < c.remainders.length →
        c'.remainders = c.remainders.filter
          (fun w => decide (rootN set.data w ≠ some r))) ∧
      (¬ (set.size - c'.size) * 2 < c.remainders.length →
        c'.remainders = c.remainders) ∧
      (∀ w, w ∈ c.remainders → rootN set.data w ≠ some r → w ∈ c'.remainders) := by
  obtain ⟨set', c', r, hrun, _, hroot, hr, _, hsize, hfilt, hnofilt⟩ :=
    update_fat_component_spec set hwf c hcr
  have hfilt' : (set.size - c'.size) * 2 < c.remainders.length →
      c'.remainders = c.remainders.filter
        (fun w => decide (rootN set.data w ≠ some r)) := by
    intro h
    rw [hsize] at h
    exact hfilt h
  have hnofilt' : ¬ (set.size - c'.size) * 2 < c.remainders.length →
      c'.remainders = c.remainders := by
    intro h
    rw [hsize] at h
    exact hnofilt h
  refine ⟨set', c', r, hrun, hroot, hr, hsize, hfilt', hnofilt', ?_⟩
  intro w hwmem hwroot
  by_cases hcond : (set.size - c'.size) * 2 < c.remainders.length
  · rw [hfilt' hcond, List.mem_filter]
    exact ⟨hwmem, by simpa using hwroot⟩
  · rw [hnofilt' hcond]
    exact hwmem

/-- C5: on every call to `next` that does not immediately return `None`,
the weight accumulator is advanced exactly once, from the very first raw
draw of the call (before any candidate edge is drawn), with the
`free_edges` value at entry as rate; the additive update is used if and
only if `free_edges > 2^16`, otherwise the multiplicative one, and the
emitted edge carries weight `1 - inv_weight`. -/
theorem C5_weight_advance (wm : WeightModel R) (st : FatComponentSampler R)
    (fuel : Nat) (hinv : SamplerInv st)
    (hgo : ¬ (st.set.free_edges = 0 ∨ st.total_count = 0))
    (res : Option (Edge R)) (st' : FatComponentSampler R)
    (h : next wm st fuel = some (res, st')) :
    st'.inv_weight =
      advanceInv wm st.inv_weight st.set.free_edges (st.rng.next).1 ∧
    (2 ^ 16 < st.set.free_edges →
      st'.inv_weight = wm.sub st.inv_weight
        (wm.div (wm.sample (st.rng.next).1) st.set.free_edges)) ∧
    (¬ 2 ^ 16 < st.set.free_edges →
      st'.inv_weight = wm.mul st.inv_weight
        (wm.exp (wm.div (wm.neg (wm.sample (st.rng.next).1))
          st.set.free_edges))) ∧
    ∃ e, res = some e ∧ e.w = wm.sub wm.one st'.inv_weight := by
  obtain ⟨e, hres, hw, _, _, _, hinvw⟩ :=
    next_spec wm st fuel hinv hgo res st' h
  refine ⟨hinvw, ?_, ?_, e, hres, ?_⟩
  · intro hgt
    rw [hinvw, advanceInv, if_pos hgt]
  · intro hle
    rw [hinvw, advanceInv, if_neg hle]
  · rw [hw, hinvw]

/-- C6: the read operations `root`, `size`, `root_size` and `same_set`
succeed on a structure with increasing parent pointers, `root u` returning
the unique root of u's component, and their path-splitting side effect
never changes the observable state: every root lookup, every root size,
the counters and the dimensions are the same before and after. -/
theorem C6_read_ops (uf : SizedUnionFind) (hinc : Increasing uf.data) (u v : Nat) :
    (∃ uf1 r, uf.root u = some (uf1, r) ∧ rootN uf.data u = some r ∧
      ObsEq uf uf1) ∧
    (∃ uf2 s, uf.sizeP u = some (uf2, s) ∧ ObsEq uf uf2) ∧
    (∃ uf3 r s, uf.root_size u = some (uf3, (r, s)) ∧ ObsEq uf uf3) ∧
    (∃ uf4 b, uf.same_set u v = some (uf4, b) ∧
      (b = true ↔ rootN uf.data u = rootN uf.data v) ∧ ObsEq uf uf4) := by
  refine ⟨?_, ?_, ?_, ?_⟩
  · obtain ⟨uf1, r, h1, h2, h3⟩ := root_spec uf hinc u
    exact ⟨uf1, r, h1, h2, ObsEq_of_ReadEffect h3⟩
  · obtain ⟨uf2, s, r, h1, _, _, h4⟩ := sizeP_spec uf hinc u
    exact ⟨uf2, s, h1, ObsEq_of_ReadEffect h4⟩
  · obtain ⟨uf3, r, s, h1, _, _, h4⟩ := root_size_spec uf hinc u
    exact ⟨uf3, r, s, h1, ObsEq_of_ReadEffect h4⟩
  · obtain ⟨uf4, b, h1, h2, h3⟩ := same_set_spec uf hinc u v
    exact ⟨uf4, b, h1, h2, ObsEq_of_ReadEffect h3⟩

/-- C7: `unite u v` on two points already resolving to the same root
(including `u = v`) returns `false` and leaves the whole structure — the
parent array, the sizes and all three edge counters — exactly as it was. -/
theorem C7_unite_noop (uf : SizedUnionFind) (hinc : Increasing uf.data)
    (u v r : Nat) (hu : u < uf.data.length) (hv : v < uf.data.length)
    (hru : rootN uf.data u = some r) (hrv : rootN uf.data v = some r) :
    uf.unite u v = some (uf, false) :=
  unite_same uf hinc u v r hru hrv hu hv

/-- C8: when `sample_component_edge` takes the fat-to-remainder branch
(`gen_bool` true, first raw draw odd), the pair it returns joins a point
of the fat component to a point outside it, so the subsequent `unite`
necessarily succeeds: the retry branch of `next` is unreachable for pairs
produced by this branch. -/
theorem C8_fat_pair (rng : Rng) (set : SizedUnionFind) (c : FatComponent)
    (fuel : Nat) (hwf : WF set) (hfat : FatRangeOK set.size (some c))
    (hbranch : (rng.next).1 % 2 = 1)
    (u v : Nat) (set' : SizedUnionFind) (rng' : Rng)
    (h : sample_component_edge rng set c fuel = some (u, v, set', rng')) :
    rootN set.data u = some c.root ∧ rootN set.data v ≠ some c.root ∧
    ∃ set2, set'.unite u v = some (set2, true) := by
  rw [sample_component_edge, if_pos hbranch] at h
  cases hrun1 : sample_component (rng.next).2 set c fuel with
  | none => simp only [hrun1] at h; cases h
  | some x1 =>
    obtain ⟨u1, set1, rng2⟩ := x1
    simp only [hrun1] at h
    obtain ⟨hre1, hu1, hroot1⟩ := sample_component_spec fuel (rng.next).2 set c
      hwf.inc hwf.pos u1 set1 rng2 hrun1
    cases hrun2 : sample_remainder rng2 set1 c fuel with
    | none => simp only [hrun2] at h; cases h
    | some x2 =>
      obtain ⟨v1, set2, rng3⟩ := x2
      simp only [hrun2] at h
      obtain ⟨hre2, hmem2, hroot2⟩ := sample_remainder_spec fuel rng2 set1 c
        hre1.inc v1 set2 rng3 hrun2
      cases h
      have hre : ReadEffect set set' := ReadEffect.trans_of hre1 hre2
      have hrootv : rootN set.data v ≠ some c.root := by
        rw [← hre1.roots v]
        exact hroot2
      refine ⟨hroot1, hrootv, ?_⟩
      have hwf' : WF set' := WF_of_ReadEffect hwf hre
      have hv : v < set.size := hfat.2 v hmem2
      have hu' : u < set'.data.length := by
        rw [hwf'.len, hre.size_eq]
        exact hu1
      have hv' : v < set'.data.length := by
        rw [hwf'.len, hre.size_eq]
        exact hv
      obtain ⟨set2u, b, hun, _, _, _, _, hforce⟩ := unite_WF set' hwf' u v hu' hv'
      have hne : rootN set'.data u ≠ rootN set'.data v := by
        rw [hre.roots u, hre.roots v, hroot1]
        intro hc
        exact hrootv (by rw [← hc])
      have hb : b = true := hforce hne
      exact ⟨set2u, by rw [← hb]; exact hun⟩

/-- C9: construction of the sampler fails exactly when `num_points` is
zero (the `Uniform::new(0, 0)` panic) or has the high tag bit set
(`num_points ≥ 2^31`, the `assert_eq!(size & SENTINEL, 0)` guard); in
particular `num_points = 1` constructs normally, so the failure set is
`{0} ∪ [2^31, ∞)`, not `num_points ≤ 1`. -/
theorem C9_construction (wm : WeightModel R) (rng : Rng) (n : Nat) :
    FatComponentSampler.new wm rng n = none ↔ n = 0 ∨ 2 ^ 31 ≤ n := by
  cases hU : SizedUnionFind.new n with
  | none =>
    simp only [FatComponentSampler.new, hU]
    rw [SizedUnionFind.new] at hU
    by_cases h1 : 2 ^ 31 ≤ n
    · exact iff_of_true trivial (Or.inr h1)
    · rw [if_neg h1] at hU
      by_cases h2 : n = 0
      · exact iff_of_true trivial (Or.inl h2)
      · rw [if_neg h2] at hU
        cases hU
  | some set =>
    simp only [FatComponentSampler.new, hU]
    rw [SizedUnionFind.new] at hU
    by_cases h1 : 2 ^ 31 ≤ n
    · rw [if_pos h1] at hU
      cases hU
    · by_cases h2 : n = 0
      · rw [if_neg h1, if_pos h2] at hU
        cases hU
      · exact iff_of_false (fun hc => Option.noConfusion hc)
          (fun hc => hc.elim h2 h1)

/-- C10: `run_trial` returns the core sampler's accumulated weight for
`dimension = 0` and the constant `0.0` — a normal scalar result, not an
error — for every `dimension ≥ 1`; the rejection of other modes happens
in `main`, which refuses `dimension = 1` and (through the clap range)
every `dimension > 4`, while dimensions 2 to 4 run the trials normally. -/
theorem C10_dimension_dispatch (wm : WeightModel R) (num_points num_trials : Nat)
    (rng : Rng) (trial_rng : Nat → Rng) (steps fuel : Nat) :
    run_trial wm num_points 0 rng steps fuel = mst wm num_points rng steps fuel ∧
    (∀ d, run_trial wm num_points (d + 1) rng steps fuel = some wm.zero) ∧
    main_run wm num_points num_trials 1 trial_rng steps fuel =
      Except.error "dimension 1 is not supported!" ∧
    (∀ d, 4 < d →
      main_run wm num_points num_trials d trial_rng steps fuel =
        Except.error "invalid value for dimension") := by
  refine ⟨rfl, fun d => rfl, ?_, fun d hd => ?_⟩
  · rw [main_run, if_neg (by omega), if_pos rfl]
  · rw [main_run, if_pos hd]

theorem C1_full_run_witness :
    2 ≤ 2 ∧
    FatComponentSampler.new ratWM (cRngL [0, 1, 2]) 2 =
      some ((FatComponentSampler.new ratWM (cRngL [0, 1, 2]) 2).getD junkSampler) ∧
    runSampler ratWM 2
        ((FatComponentSampler.new ratWM (cRngL [0, 1, 2]) 2).getD junkSampler) 3 =
      some
        (((runSampler ratWM 2
            ((FatComponentSampler.new ratWM (cRngL [0, 1, 2]) 2).getD junkSampler)
            3).getD ([], junkSampler)).1,
          ((runSampler ratWM 2
            ((FatComponentSampler.new ratWM (cRngL [0, 1, 2]) 2).getD junkSampler)
            3).getD ([], junkSampler)).2) ∧
    (((runSampler ratWM 2
        ((FatComponentSampler.new ratWM (cRngL [0, 1, 2]) 2).getD junkSampler)
        3).getD ([], junkSampler)).1.length = 2 - 1 ∧
      ((runSampler ratWM 2
        ((FatComponentSampler.new ratWM (cRngL [0, 1, 2]) 2).getD junkSampler)
        3).getD ([], junkSampler)).2.total_count = 0 ∧
      next ratWM
        ((runSampler ratWM 2
          ((FatComponentSampler.new ratWM (cRngL [0, 1, 2]) 2).getD junkSampler)
          3).getD ([], junkSampler)).2 3 =
        some (none,
          ((runSampler ratWM 2
            ((FatComponentSampler.new ratWM (cRngL [0, 1, 2]) 2).getD junkSampler)
            3).getD ([], junkSampler)).2) ∧
      ∀ u v, u < 2 → v < 2 →
        ∃ set',
          (((runSampler ratWM 2
            ((FatComponentSampler.new ratWM (cRngL [0, 1, 2]) 2).getD junkSampler)
            3).getD ([], junkSampler)).2).set.same_set u v = some (set', true)) :=
  ⟨by decide, rfl, rfl,
    C1_full_run ratWM 2 (cRngL [0, 1, 2]) 2 3
      ((FatComponentSampler.new ratWM (cRngL [0, 1, 2]) 2).getD junkSampler)
      _ _ (by decide) rfl rfl⟩

theorem C2_counters_witness :
    SizedUnionFind.new 3 = some ((SizedUnionFind.new 3).getD junkUF) ∧
    (∀ op ∈ [(0, 1), (0, 2)], op.1 < 3 ∧ op.2 < 3) ∧
    applyUnites ((SizedUnionFind.new 3).getD junkUF) [(0, 1), (0, 2)] =
      some ((applyUnites ((SizedUnionFind.new 3).getD junkUF)
        [(0, 1), (0, 2)]).getD junkUF) ∧
    (((applyUnites ((SizedUnionFind.new 3).getD junkUF)
        [(0, 1), (0, 2)]).getD junkUF).linked_edges =
      samePairs ((applyUnites ((SizedUnionFind.new 3).getD junkUF)
        [(0, 1), (0, 2)]).getD junkUF).data ∧
     ((applyUnites ((SizedUnionFind.new 3).getD junkUF)
        [(0, 1), (0, 2)]).getD junkUF).free_edges +
       ((applyUnites ((SizedUnionFind.new 3).getD junkUF)
        [(0, 1), (0, 2)]).getD junkUF).linked_edges =
      ((applyUnites ((SizedUnionFind.new 3).getD junkUF)
        [(0, 1), (0, 2)]).getD junkUF).total_edges ∧
     ((applyUnites ((SizedUnionFind.new 3).getD junkUF)
        [(0, 1), (0, 2)]).getD junkUF).total_edges = 3 * (3 - 1) / 2) :=
  ⟨rfl, by decide, rfl,
    C2_counters 3 ((SizedUnionFind.new 3).getD junkUF) _ [(0, 1), (0, 2)]
      rfl (by decide) rfl⟩

theorem C3_detection_witness :
    WF ((((SizedUnionFind.new 2).getD junkUF).unite 0 1).getD (junkUF, false)).1 ∧
    2 ≤ ((((SizedUnionFind.new 2).getD junkUF).unite 0 1).getD (junkUF, false)).1.size ∧
    ((((SizedUnionFind.new 2).getD junkUF).unite 0 1).getD
        (junkUF, false)).1.free_edges * 2 <
      ((((SizedUnionFind.new 2).getD junkUF).unite 0 1).getD
        (junkUF, false)).1.total_edges ∧
    (∃ uf' fc,
      find_fat_component
          ((((SizedUnionFind.new 2).getD junkUF).unite 0 1).getD (junkUF, false)).1 =
        some (uf', some fc) ∧
      isRootSlot
          ((((SizedUnionFind.new 2).getD junkUF).unite 0 1).getD
            (junkUF, false)).1.data fc.root = true ∧
      (fiber ((((SizedUnionFind.new 2).getD junkUF).unite 0 1).getD
          (junkUF, false)).1.data fc.root).card * 2 ≥
        ((((SizedUnionFind.new 2).getD junkUF).unite 0 1).getD
          (junkUF, false)).1.size ∧
      fc.size = (fiber ((((SizedUnionFind.new 2).getD junkUF).unite 0 1).getD
          (junkUF, false)).1.data fc.root).card ∧
      (∀ w, w < ((((SizedUnionFind.new 2).getD junkUF).unite 0 1).getD
          (junkUF, false)).1.size →
        (w ∈ fc.remainders ↔
          rootN ((((SizedUnionFind.new 2).getD junkUF).unite 0 1).getD
            (junkUF, false)).1.data w ≠ some fc.root)) ∧
      (∀ w, w ∈ fc.remainders →
        w < ((((SizedUnionFind.new 2).getD junkUF).unite 0 1).getD
          (junkUF, false)).1.size)) := by
  have hwf0 := (new_spec 2 ((SizedUnionFind.new 2).getD junkUF) rfl).1
  obtain ⟨uf', b, hu, hwf', _⟩ :=
    unite_WF ((SizedUnionFind.new 2).getD junkUF) hwf0 0 1 (by decide) (by decide)
  have he : ((((SizedUnionFind.new 2).getD junkUF).unite 0 1).getD
      (junkUF, false)).1 = uf' := by
    rw [hu]
    rfl
  have hwfS : WF ((((SizedUnionFind.new 2).getD junkUF).unite 0 1).getD
      (junkUF, false)).1 := by
    rw [he]
    exact hwf'
  exact ⟨hwfS, by decide, by decide, C3_detection _ hwfS (by decide) (by decide)⟩

theorem C4_update_fat_witness :
    WF ((SizedUnionFind.new 3).getD junkUF) ∧
    (FatComponent.mk 0 1 [1, 2]).root < ((SizedUnionFind.new 3).getD junkUF).data.length ∧
    (∃ set' c' r,
      update_fat_component ((SizedUnionFind.new 3).getD junkUF)
          (FatComponent.mk 0 1 [1, 2]) = some (set', c') ∧
      rootN ((SizedUnionFind.new 3).getD junkUF).data
          (FatComponent.mk 0 1 [1, 2]).root = some r ∧
      c'.root = r ∧
      c'.size = (fiber ((SizedUnionFind.new 3).getD junkUF).data r).card ∧
      ((((SizedUnionFind.new 3).getD junkUF).size - c'.size) * 2 <
          (FatComponent.mk 0 1 [1, 2]).remainders.length →
        c'.remainders = (FatComponent.mk 0 1 [1, 2]).remainders.filter
          (fun w => decide
            (rootN ((SizedUnionFind.new 3).getD junkUF).data w ≠ some r))) ∧
      (¬ (((SizedUnionFind.new 3).getD junkUF).size - c'.size) * 2 <
          (FatComponent.mk 0 1 [1, 2]).remainders.length →
        c'.remainders = (FatComponent.mk 0 1 [1, 2]).remainders) ∧
      (∀ w, w ∈ (FatComponent.mk 0 1 [1, 2]).remainders →
        rootN ((SizedUnionFind.new 3).getD junkUF).data w ≠ some r →
        w ∈ c'.remainders)) := by
  have hwf := (new_spec 3 ((SizedUnionFind.new 3).getD junkUF) rfl).1
  exact ⟨hwf, by decide,
    C4_update_fat ((SizedUnionFind.new 3).getD junkUF) hwf
      (FatComponent.mk 0 1 [1, 2]) (by decide)⟩

theorem C5_weight_advance_witness :
    SamplerInv ((FatComponentSampler.new ratWM (cRngL [0, 1, 2]) 2).getD junkSampler) ∧
    ¬ (((FatComponentSampler.new ratWM (cRngL [0, 1, 2]) 2).getD
          junkSampler).set.free_edges = 0 ∨
        ((FatComponentSampler.new ratWM (cRngL [0, 1, 2]) 2).getD
          junkSampler).total_count = 0) ∧
    next ratWM ((FatComponentSampler.new ratWM (cRngL [0, 1, 2]) 2).getD junkSampler) 3 =
      some
        (((next ratWM ((FatComponentSampler.new ratWM (cRngL [0, 1, 2]) 2).getD
            junkSampler) 3).getD (none, junkSampler)).1,
          ((next ratWM ((FatComponentSampler.new ratWM (cRngL [0, 1, 2]) 2).getD
            junkSampler) 3).getD (none, junkSampler)).2) ∧
    (((next ratWM ((FatComponentSampler.new ratWM (cRngL [0, 1, 2]) 2).getD
          junkSampler) 3).getD (none, junkSampler)).2.inv_weight =
        advanceInv ratWM
          ((FatComponentSampler.new ratWM (cRngL [0, 1, 2]) 2).getD
            junkSampler).inv_weight
          ((FatComponentSampler.new ratWM (cRngL [0, 1, 2]) 2).getD
            junkSampler).set.free_edges
          ((((FatComponentSampler.new ratWM (cRngL [0, 1, 2]) 2).getD
            junkSampler).rng.next).1) ∧
      (2 ^ 16 < ((FatComponentSampler.new ratWM (cRngL [0, 1, 2]) 2).getD
          junkSampler).set.free_edges →
        ((next ratWM ((FatComponentSampler.new ratWM (cRngL [0, 1, 2]) 2).getD
            junkSampler) 3).getD (none, junkSampler)).2.inv_weight =
          ratWM.sub ((FatComponentSampler.new ratWM (cRngL [0, 1, 2]) 2).getD
              junkSampler).inv_weight
            (ratWM.div (ratWM.sample
                ((((FatComponentSampler.new ratWM (cRngL [0, 1, 2]) 2).getD
                  junkSampler).rng.next).1))
              ((FatComponentSampler.new ratWM (cRngL [0, 1, 2]) 2).getD
                junkSampler).set.free_edges)) ∧
      (¬ 2 ^ 16 < ((FatComponentSampler.new ratWM (cRngL [0, 1, 2]) 2).getD
          junkSampler).set.free_edges →
        ((next ratWM ((FatComponentSampler.new ratWM (cRngL [0, 1, 2]) 2).getD
            junkSampler) 3).getD (none, junkSampler)).2.inv_weight =
          ratWM.mul ((FatComponentSampler.new ratWM (cRngL [0, 1, 2]) 2).getD
              junkSampler).inv_weight
            (ratWM.exp (ratWM.div (ratWM.neg (ratWM.sample
                ((((FatComponentSampler.new ratWM (cRngL [0, 1, 2]) 2).getD
                  junkSampler).rng.next).1)))
              ((FatComponentSampler.new ratWM (cRngL [0, 1, 2]) 2).getD
                junkSampler).set.free_edges))) ∧
      ∃ e,
        ((next ratWM ((FatComponentSampler.new ratWM (cRngL [0, 1, 2]) 2).getD
          junkSampler) 3).getD (none, junkSampler)).1 = some e ∧
        e.w = ratWM.sub ratWM.one
          ((next ratWM ((FatComponentSampler.new ratWM (cRngL [0, 1, 2]) 2).getD
            junkSampler) 3).getD (none, junkSampler)).2.inv_weight) := by
  have hinv : SamplerInv ((FatComponentSampler.new ratWM (cRngL [0, 1, 2]) 2).getD
      junkSampler) :=
    ⟨(new_spec 2 _ rfl).1, by decide, trivial⟩
  exact ⟨hinv, by decide, rfl,
    C5_weight_advance ratWM
      ((FatComponentSampler.new ratWM (cRngL [0, 1, 2]) 2).getD junkSampler) 3
      hinv (by decide) _ _ rfl⟩

theorem C6_read_ops_witness :
    Increasing ((SizedUnionFind.new 2).getD junkUF).data ∧
    ((∃ uf1 r, ((SizedUnionFind.new 2).getD junkUF).root 0 = some (uf1, r) ∧
        rootN ((SizedUnionFind.new 2).getD junkUF).data 0 = some r ∧
        ObsEq ((SizedUnionFind.new 2).getD junkUF) uf1) ∧
      (∃ uf2 s, ((SizedUnionFind.new 2).getD junkUF).sizeP 0 = some (uf2, s) ∧
        ObsEq ((SizedUnionFind.new 2).getD junkUF) uf2) ∧
      (∃ uf3 r s, ((SizedUnionFind.new 2).getD junkUF).root_size 0 =
          some (uf3, (r, s)) ∧
        ObsEq ((SizedUnionFind.new 2).getD junkUF) uf3) ∧
      (∃ uf4 b, ((SizedUnionFind.new 2).getD junkUF).same_set 0 1 = some (uf4, b) ∧
        (b = true ↔ rootN ((SizedUnionFind.new 2).getD junkUF).data 0 =
          rootN ((SizedUnionFind.new 2).getD junkUF).data 1) ∧
        ObsEq ((SizedUnionFind.new 2).getD junkUF) uf4)) := by
  have hinc : Increasing ((SizedUnionFind.new 2).getD junkUF).data :=
    (new_spec 2 _ rfl).1.inc
  exact ⟨hinc, C6_read_ops ((SizedUnionFind.new 2).getD junkUF) hinc 0 1⟩

theorem C7_unite_noop_witness :
    Increasing ((SizedUnionFind.new 2).getD junkUF).data ∧
    0 < ((SizedUnionFind.new 2).getD junkUF).data.length ∧
    rootN ((SizedUnionFind.new 2).getD junkUF).data 0 = some 0 ∧
    ((SizedUnionFind.new 2).getD junkUF).unite 0 0 =
      some ((SizedUnionFind.new 2).getD junkUF, false) := by
  have hinc : Increasing ((SizedUnionFind.new 2).getD junkUF).data :=
    (new_spec 2 _ rfl).1.inc
  exact ⟨hinc, by decide, by decide,
    C7_unite_noop ((SizedUnionFind.new 2).getD junkUF) hinc 0 0 0
      (by decide) (by decide) (by decide) (by decide)⟩

theorem C8_fat_pair_witness :
    WF ((SizedUnionFind.new 3).getD junkUF) ∧
    FatRangeOK ((SizedUnionFind.new 3).getD junkUF).size
      (some (FatComponent.mk 0 1 [1, 2])) ∧
    (((cRngL [1, 0, 0]).next).1 % 2 = 1) ∧
    sample_component_edge (cRngL [1, 0, 0]) ((SizedUnionFind.new 3).getD junkUF)
        (FatComponent.mk 0 1 [1, 2]) 2 =
      some
        (((sample_component_edge (cRngL [1, 0, 0]) ((SizedUnionFind.new 3).getD junkUF)
            (FatComponent.mk 0 1 [1, 2]) 2).getD (0, 0, junkUF, cRngL [])).1,
          ((sample_component_edge (cRngL [1, 0, 0]) ((SizedUnionFind.new 3).getD junkUF)
            (FatComponent.mk 0 1 [1, 2]) 2).getD (0, 0, junkUF, cRngL [])).2.1,
          ((sample_component_edge (cRngL [1, 0, 0]) ((SizedUnionFind.new 3).getD junkUF)
            (FatComponent.mk 0 1 [1, 2]) 2).getD (0, 0, junkUF, cRngL [])).2.2.1,
          ((sample_component_edge (cRngL [1, 0, 0]) ((SizedUnionFind.new 3).getD junkUF)
            (FatComponent.mk 0 1 [1, 2]) 2).getD (0, 0, junkUF, cRngL [])).2.2.2) ∧
    (rootN ((SizedUnionFind.new 3).getD junkUF).data
        ((sample_component_edge (cRngL [1, 0, 0]) ((SizedUnionFind.new 3).getD junkUF)
          (FatComponent.mk 0 1 [1, 2]) 2).getD (0, 0, junkUF, cRngL [])).1 =
        some (FatComponent.mk 0 1 [1, 2]).root ∧
      rootN ((SizedUnionFind.new 3).getD junkUF).data
        ((sample_component_edge (cRngL [1, 0, 0]) ((SizedUnionFind.new 3).getD junkUF)
          (FatComponent.mk 0 1 [1, 2]) 2).getD (0, 0, junkUF, cRngL [])).2.1 ≠
        some (FatComponent.mk 0 1 [1, 2]).root ∧
      ∃ set2,
        (((sample_component_edge (cRngL [1, 0, 0]) ((SizedUnionFind.new 3).getD junkUF)
          (FatComponent.mk 0 1 [1, 2]) 2).getD (0, 0, junkUF, cRngL [])).2.2.1).unite
          ((sample_component_edge (cRngL [1, 0, 0]) ((SizedUnionFind.new 3).getD junkUF)
            (FatComponent.mk 0 1 [1, 2]) 2).getD (0, 0, junkUF, cRngL [])).1
          ((sample_component_edge (cRngL [1, 0, 0]) ((SizedUnionFind.new 3).getD junkUF)
            (FatComponent.mk 0 1 [1, 2]) 2).getD (0, 0, junkUF, cRngL [])).2.1 =
          some (set2, true)) := by
  have hwf := (new_spec 3 ((SizedUnionFind.new 3).getD junkUF) rfl).1
  exact ⟨hwf, ⟨by decide, by decide⟩, by decide, rfl,
    C8_fat_pair (cRngL [1, 0, 0]) ((SizedUnionFind.new 3).getD junkUF)
      (FatComponent.mk 0 1 [1, 2]) 2 hwf ⟨by decide, by decide⟩ (by decide)
      _ _ _ _ rfl⟩

theorem C9_construction_counterexample :
    (FatComponentSampler.new ratWM (cRngL []) 1).isSome = true ∧
    ¬ (1 : Nat) = 0 ∧ ¬ 2 ^ 31 ≤ (1 : Nat) := by
  exact ⟨rfl, by decide, by decide⟩

theorem C10_dimension_dispatch_witness :
    4 < 7 ∧
    main_run ratWM 2 1 7 (fun _ => cRngL []) 1 1 =
      Except.error "invalid value for dimension" :=
  ⟨by decide,
    (C10_dimension_dispatch ratWM 2 1 (cRngL []) (fun _ => cRngL []) 1 1).2.2.2
      7 (by decide)⟩

theorem C10_dimension_dispatch_counterexample :
    run_trial ratWM 4 2 (cRngL []) 1 1 = some ratWM.zero ∧
    main_run ratWM 4 1 2 (fun _ => cRngL []) 1 1 = Except.ok [ratWM.zero] := by
  exact ⟨rfl, rfl⟩
end RandMST
